import Mathlib

/-!
Shallow embedding of the WebinarVideoCleaner subtitle core
(`correct_srt.py`, `check_srt_alignment.py`) in Lean 4.

Python strings are embedded as `List Char`; Python's unbounded `int` as
`Int`; a function that may raise `ValueError` returns an `Option`, with
`none` standing for the raised exception.  Millisecond arithmetic uses
`Int.ediv`/`Int.emod`, which agree with Python's `//` and `%` for the
positive divisors used by the source.
-/

/-- Whitespace test matching Python's `str.strip()` and the regex `\s` on
`str` patterns; both use the same predicate, true exactly on code points
U+0009 to U+000D, U+001C to U+001F, U+0020, U+0085, U+00A0, U+1680,
U+2000 to U+200A, U+2028, U+2029, U+202F, U+205F and U+3000. -/
def pyIsSpace (c : Char) : Bool :=
  decide ((0x09 ≤ c.toNat ∧ c.toNat ≤ 0x0d) ∨ (0x1c ≤ c.toNat ∧ c.toNat ≤ 0x20) ∨
    c.toNat = 0x85 ∨ c.toNat = 0xa0 ∨ c.toNat = 0x1680 ∨
    (0x2000 ≤ c.toNat ∧ c.toNat ≤ 0x200a) ∨ c.toNat = 0x2028 ∨ c.toNat = 0x2029 ∨
    c.toNat = 0x202f ∨ c.toNat = 0x205f ∨ c.toNat = 0x3000)

/-- Embedding of Python `str.strip()`: drop whitespace at both ends. -/
def pyStrip (s : List Char) : List Char :=
  ((s.dropWhile pyIsSpace).reverse.dropWhile pyIsSpace).reverse

/-- Embedding of Python `str.split(sep)` for a one-character separator:
split at every occurrence, keeping empty pieces, never returning `[]`. -/
def splitOnChar (c : Char) : List Char → List (List Char)
  | [] => [[]]
  | x :: xs =>
    let r := splitOnChar c xs
    if x = c then [] :: r else (x :: r.headI) :: r.tail

/-- Embedding of Python `str.split(sep)` for the three-character separator
used by the SRT time line (leftmost, non-overlapping occurrences). -/
def splitArrow : List Char → List (List Char)
  | '-' :: '-' :: '>' :: rest => [] :: splitArrow rest
  | x :: xs =>
    let r := splitArrow xs
    (x :: r.headI) :: r.tail
  | [] => [[]]

/-- Decimal digit character for a digit value 0..9. -/
def digitToChar : Nat → Char
  | 0 => '0' | 1 => '1' | 2 => '2' | 3 => '3' | 4 => '4'
  | 5 => '5' | 6 => '6' | 7 => '7' | 8 => '8' | 9 => '9'
  | _ => '?'

/-- Structural worker for `toDec`; the fuel argument only forces
termination and any fuel above the value suffices (`toDecAux_eq_toDecAux`). -/
def toDecAux (fuel n : Nat) : List Char :=
  match fuel with
  | 0 => []
  | fuel + 1 =>
    if n < 10 then [digitToChar n]
    else toDecAux fuel (n / 10) ++ [digitToChar (n % 10)]

/-- Decimal representation of a natural number, matching Python `str(n)`
for `n ≥ 0`. -/
def toDec (n : Nat) : List Char := toDecAux (n + 1) n

/-- Value of a decimal digit character, `none` for a non-digit. -/
def charDigit? (c : Char) : Option Nat :=
  if 48 ≤ c.toNat ∧ c.toNat ≤ 57 then some (c.toNat - 48) else none

/-- One step of decimal accumulation, propagating failure. -/
def pushDigit (acc : Option Nat) (c : Char) : Option Nat :=
  acc.bind fun a => (charDigit? c).map fun d => 10 * a + d

/-- Digits-only decimal parse; `none` on the empty list or a non-digit. -/
def parseDigits? (l : List Char) : Option Nat :=
  if l.isEmpty then none else l.foldl pushDigit (some 0)

/-- Embedding of Python `int(s)` on decimal literals: surrounding
whitespace and a single leading sign are accepted, anything else raises
(`none`).  Underscores and non-ASCII digits are not modelled. -/
def pyInt? (s : List Char) : Option Int :=
  match pyStrip s with
  | [] => none
  | c :: ds =>
    if c = '-' then (parseDigits? ds).map fun n => -(n : Int)
    else if c = '+' then (parseDigits? ds).map fun n => (n : Int)
    else (parseDigits? (c :: ds)).map fun n => (n : Int)

/-- Zero padding on the left up to width `w`, as in `f"{n:0wd}"` for a
non-negative value. -/
def padZeros (w : Nat) (ds : List Char) : List Char :=
  List.replicate (w - ds.length) '0' ++ ds

/-- Embedding of the Python f-string field `{n:0wd}`: zero padding counts
the sign character, zeros go after the sign. -/
def pyPad (w : Nat) (n : Int) : List Char :=
  if n < 0 then '-' :: padZeros (w - 1) (toDec n.natAbs) else padZeros w (toDec n.toNat)

/-- Embedding of `parse_time_to_ms`'s millisecond-separator handling:
`hms, ms = time_str.split(',')` (or `'.'`), a `ValueError` from unpacking
more than two pieces modelled as `none`; with neither separator the
millisecond part defaults to `'000'`. -/
def twoParts : List (List Char) → Option (List Char × List Char)
  | [a, b] => some (a, b)
  | _ => none

def msSplitParts (t : List Char) : Option (List Char × List Char) :=
  if ',' ∈ t then twoParts (splitOnChar ',' t)
  else if '.' ∈ t then twoParts (splitOnChar '.' t)
  else some (t, ['0', '0', '0'])

/-- Branch of `parse_time_to_ms` on the colon-separated fields of the
`hms` part: three fields are `h:m:s`, two fields are `m:s` with `h = 0`,
any other count returns `0` at once (before `int(ms)` is ever evaluated);
`int()` failures (`ValueError`) give `none`. -/
def timeFieldsValue (parts : List (List Char)) (ms : List Char) : Option Int :=
  match parts with
  | [p1, p2, p3] =>
    (pyInt? p1).bind fun h =>
    (pyInt? p2).bind fun m =>
    (pyInt? p3).bind fun s =>
    (pyInt? ms).map fun mv => (h * 3600 + m * 60 + s) * 1000 + mv
  | [p1, p2] =>
    (pyInt? p1).bind fun m =>
    (pyInt? p2).bind fun s =>
    (pyInt? ms).map fun mv => (0 * 3600 + m * 60 + s) * 1000 + mv
  | _ => some 0

/-- Embedding of `parse_time_to_ms` (correct_srt.py, lines 7-31): strip,
split off the millisecond field, split the rest on ':' and evaluate the
fields. -/
def parse_time_to_ms (timeStr : List Char) : Option Int :=
  (msSplitParts (pyStrip timeStr)).bind fun hm =>
    timeFieldsValue (splitOnChar ':' hm.1) hm.2

/-- Embedding of `format_ms_to_srt` (correct_srt.py, lines 33-45); the
Python in-place updates `seconds %= 60`, `minutes %= 60` are rendered as
the shadowing lets `seconds2`, `minutes2`. -/
def format_ms_to_srt (ms : Int) : List Char :=
  let seconds := ms.ediv 1000
  let milliseconds := ms.emod 1000
  let minutes := seconds.ediv 60
  let hours := minutes.ediv 60
  let seconds2 := seconds.emod 60
  let minutes2 := minutes.emod 60
  pyPad 2 hours ++ ':' :: (pyPad 2 minutes2 ++ ':' :: (pyPad 2 seconds2 ++ ',' :: pyPad 3 milliseconds))

/-- Greedy tail of the regex `\n\s*\n` after its first `\n`: look for the
last newline inside the maximal whitespace run and return the characters
after it; `none` when the run holds no newline. -/
def sepTail? : List Char → Option (List Char)
  | [] => none
  | c :: cs =>
    if pyIsSpace c then
      match sepTail? cs with
      | some r => some r
      | none => if c = '\n' then some cs else none
    else none

/-- Leftmost match of the separator regex `\n\s*\n` in a string, returning
the text before the match and the text after it. -/
def findMatch : List Char → Option (List Char × List Char)
  | [] => none
  | c :: cs =>
    if c = '\n' then
      match sepTail? cs with
      | some r => some ([], r)
      | none =>
        match findMatch cs with
        | some (pre, post) => some (c :: pre, post)
        | none => none
    else
      match findMatch cs with
      | some (pre, post) => some (c :: pre, post)
      | none => none

/-- Structural worker for `splitSep`; fuel bounds the number of splits and
any fuel at least the string length suffices (`splitSepAux_eq`). -/
def splitSepAux (fuel : Nat) (s : List Char) : List (List Char) :=
  match fuel with
  | 0 => [s]
  | fuel + 1 =>
    match findMatch s with
    | none => [s]
    | some (pre, post) => pre :: splitSepAux fuel post

/-- Embedding of Python `re.split(r'\n\s*\n', s)`: cut the string at every
non-overlapping leftmost match of the blank-line separator. -/
def splitSep (s : List Char) : List (List Char) := splitSepAux s.length s

/-- Embedding of Python `sep.join(pieces)`. -/
def pyJoin (sep : List Char) : List (List Char) → List Char
  | [] => []
  | [x] => x
  | x :: y :: rest => x ++ sep ++ pyJoin sep (y :: rest)

/-- Decimal representation of a Python `int`, matching `str(n)`. -/
def intRepr (n : Int) : List Char :=
  if n < 0 then '-' :: toDec n.natAbs else toDec n.toNat

/-- Subtitle record as built by `parse_srt`: the Python dict with keys
`index`, `start`, `end`, `text`; the `end` key is embedded as the field
`stop` because `end` is reserved in Lean. -/
structure Subtitle where
  index : Int
  start : Int
  stop : Int
  text : List Char
deriving DecidableEq

/-- Per-block body of `parse_srt` (correct_srt.py, lines 91-111) on the
lines of a stripped block: fewer than two lines, a `ValueError` from
`int(lines[0].strip())`, a time line without the arrow, an arrow split
into other than two pieces (unpacking `ValueError`), or a `ValueError`
from a timestamp parse all skip the block (`none`). -/
def parseBlockLines : List (List Char) → Option Subtitle
  | l0 :: l1 :: rest =>
    (pyInt? (pyStrip l0)).bind fun idx =>
    (twoParts (splitArrow (pyStrip l1))).bind fun xy =>
    (parse_time_to_ms xy.1).bind fun s =>
    (parse_time_to_ms xy.2).map fun e =>
    ⟨idx, s, e, pyJoin ['\n'] rest⟩
  | _ => none

def parseBlock (b : List Char) : Option Subtitle :=
  parseBlockLines (splitOnChar '\n' (pyStrip b))

/-- Embedding of `parse_srt` (correct_srt.py, lines 75-113) on the file's
contents: strip, split on blank-line separators, parse each block, and
keep the blocks that parse. -/
def parse_srt (content : List Char) : List Subtitle :=
  (splitSep (pyStrip content)).filterMap parseBlock

/-- Time line of a record as written by `save_srt`. -/
def timeLine (sub : Subtitle) : List Char :=
  format_ms_to_srt sub.start ++ (" --> ").toList ++ format_ms_to_srt sub.stop

/-- Embedding of `save_srt` (correct_srt.py, lines 166-179) up to the file
write: the written contents are the newline-join of index line, time line,
text and an empty separator line for each record. -/
def save_srt (subs : List Subtitle) : List Char :=
  pyJoin ['\n'] (List.flatten (subs.map fun sub => [intRepr sub.index, timeLine sub, sub.text, []]))

/-- Worker for `map_time` carrying the accumulated offset of the cuts
already passed. -/
def mapTimeAux (t offset : Int) : List (Int × Int) → Int × Bool
  | [] => (t - offset, false)
  | (s, e) :: rest =>
    if t < s then (t - offset, false)
    else if t < e then (s - offset, true)
    else mapTimeAux t (offset + (e - s)) rest

/-- Embedding of `map_time` (correct_srt.py, lines 115-134): scan the cuts
with a running offset, stopping before the first cut past `t` or clamping
inside the first cut containing `t`. -/
def map_time (t : Int) (cuts : List (Int × Int)) : Int × Bool :=
  mapTimeAux t 0 cuts

/-- Worker for `apply_cuts_to_subs` carrying the running fresh index. -/
def applyCutsAux (cuts : List (Int × Int)) (newIndex : Int) : List Subtitle → List Subtitle
  | [] => []
  | sub :: rest =>
    let ns := (map_time sub.start cuts).1
    let ne := (map_time sub.stop cuts).1
    if ne - ns < 100 then applyCutsAux cuts newIndex rest
    else ⟨newIndex, ns, ne, sub.text⟩ :: applyCutsAux cuts (newIndex + 1) rest

/-- Embedding of `apply_cuts_to_subs` (correct_srt.py, lines 136-164):
remap both endpoints of every record, drop a record whose new duration is
under 100 ms, renumber the survivors from 1. -/
def apply_cuts_to_subs (subs : List Subtitle) (cuts : List (Int × Int)) : List Subtitle :=
  applyCutsAux cuts 1 subs

/-- Item of the JSON cuts payload: a dict that may carry `start` and `end`
string fields; the `end` key is embedded as the field `stop`. -/
structure CutItem where
  start : Option (List Char)
  stop : Option (List Char)
deriving DecidableEq

/-- Parsing loop of `load_cuts`: items that have both keys contribute a
parsed pair; a `ValueError` from `parse_time_to_ms` (`none`) aborts the
whole load because `load_cuts` catches it outside the loop. -/
def collectCuts : List CutItem → Option (List (Int × Int))
  | [] => some []
  | item :: rest =>
    match item.start, item.stop with
    | some s, some e =>
      (parse_time_to_ms s).bind fun sm =>
      (parse_time_to_ms e).bind fun em =>
      (collectCuts rest).map fun tl => (sm, em) :: tl
    | _, _ => collectCuts rest

/-- Comparison used by `cuts.sort(key=lambda x: x[0])`. -/
def byStartLe (a b : Int × Int) : Bool := decide (a.1 ≤ b.1)

/-- Embedding of `load_cuts` (correct_srt.py, lines 47-73) on the decoded
JSON payload: collect the pairs of every item holding both keys, sort them
stably by start; any exception during the loop makes it return `[]`. -/
def load_cuts (data : List CutItem) : List (Int × Int) :=
  ((collectCuts data).map fun cuts => cuts.mergeSort byStartLe).getD []

/-- Violations reported by `check_alignment` (check_srt_alignment.py,
lines 25-55); each constructor records the data interpolated into the
corresponding message string. -/
inductive Violation where
  | nonPositiveDuration (index startMs stopMs : Int)
  | overlap (prevIndex currIndex prevStop currStart overlapMs : Int)
  | unsorted (currIndex currStart prevStart : Int)
deriving DecidableEq

/-- Issues contributed by one record of the loop body of
`check_alignment`: the duration check, then for a record with a
predecessor the overlap check and the unsorted check. -/
def issuesFor (prev : Option Subtitle) (current : Subtitle) : List Violation :=
  (if current.start ≥ current.stop then
      [Violation.nonPositiveDuration current.index current.start current.stop]
    else []) ++
  match prev with
  | none => []
  | some p =>
    (if current.start < p.stop then
        [Violation.overlap p.index current.index p.stop current.start (p.stop - current.start)]
      else []) ++
    (if current.start < p.start then
        [Violation.unsorted current.index current.start p.start]
      else [])

/-- Loop of `check_alignment` over the records, remembering the previous
record. -/
def checkAux : Option Subtitle → List Subtitle → List Violation
  | _, [] => []
  | prev, c :: rest => issuesFor prev c ++ checkAux (some c) rest

/-- Issue list built by `check_alignment` (check_srt_alignment.py, lines
25-44): every violation found, in the order encountered. -/
def check_alignment_issues (subs : List Subtitle) : List Violation :=
  checkAux none subs

/-- Total removed duration of a cut list: the offset accumulated after
passing all of its cuts. -/
def cutLen (cuts : List (Int × Int)) : Int :=
  (cuts.map fun p => p.2 - p.1).sum

/-- Fresh sequential renumbering used by the spec's description of the
Subtitle Reconstructor. -/
def renumberFrom (n : Int) : List Subtitle → List Subtitle
  | [] => []
  | r :: rs => ⟨n, r.start, r.stop, r.text⟩ :: renumberFrom (n + 1) rs

/-- Reconstruction as the spec words it (spec 4.5): map both endpoints of
every record through the Remapper, drop a record whose remapped duration
is under the 100 ms threshold, emit survivors in order with fresh indices
from 1 and text copied verbatim.  Stated from the spec to compare with
`apply_cuts_to_subs`. -/
def reconstructSpec (subs : List Subtitle) (cuts : List (Int × Int)) : List Subtitle :=
  renumberFrom 1 (((subs.map fun sub =>
      (⟨sub.index, (map_time sub.start cuts).1, (map_time sub.stop cuts).1, sub.text⟩ :
        Subtitle))).filter
    fun r => !decide (r.stop - r.start < 100))

/-- Adjacent-pair condition of a well-formed track: no overlap and sorted
starts (spec 3, Alignment). -/
def pairOk (p c : Subtitle) : Prop := p.stop ≤ c.start ∧ p.start ≤ c.start

/-- Fully valid track as the spec words it: positive durations, no
overlap, monotone starts. -/
def validTrack (subs : List Subtitle) : Prop :=
  (∀ r ∈ subs, r.start < r.stop) ∧ List.Chain' pairOk subs

/-- One line of a serialized block that survives the blank-line split
and the block strip intact: it holds no newline and at least one
non-whitespace character. -/
def goodLine (L : List Char) : Prop :=
  '\n' ∉ L ∧ ∃ c ∈ L, pyIsSpace c = false

/-- Record text that serializes reversibly: every line of its
newline-split has a non-whitespace character (no blank lines) and its
last character is not whitespace. -/
def textGood (text : List Char) : Prop :=
  (∀ L ∈ splitOnChar '\n' text, ∃ c ∈ L, pyIsSpace c = false) ∧
  pyIsSpace (text.getLastD 'a') = false

instance (text : List Char) : Decidable (textGood text) := by
  unfold textGood
  infer_instance

/-- Block written by `save_srt` for one record, without the trailing
separator line. -/
def blockOf (sub : Subtitle) : List Char :=
  intRepr sub.index ++ '\n' :: (timeLine sub ++ '\n' :: sub.text)

/-- Shape of a serialized block as the splitter sees it: a nonempty join
of good lines whose first character is not whitespace. -/
def goodBlock (b : List Char) : Prop :=
  (∃ Ls, Ls ≠ [] ∧ (∀ L ∈ Ls, goodLine L) ∧ b = pyJoin ['\n'] Ls) ∧
  (∃ d rs, b = d :: rs ∧ pyIsSpace d = false)

example : parse_time_to_ms ("00:00:01").toList = some 1000 := by decide
example : parse_time_to_ms ("01:02:03,045").toList = some 3723045 := by decide
example : parse_time_to_ms ("02:03").toList = some 123000 := by decide
example : parse_time_to_ms ("1:2:3:4").toList = some 0 := by decide
example : parse_time_to_ms ("1,2,3").toList = none := by decide
example : format_ms_to_srt 3723045 = ("01:02:03,045").toList := by decide
example : format_ms_to_srt 0 = ("00:00:00,000").toList := by decide
example : map_time 1500 [(1000, 2000)] = (1000, true) := by decide
example : apply_cuts_to_subs
    [⟨1, 0, 1000, ("keep1").toList⟩, ⟨2, 1200, 1800, ("delete").toList⟩,
     ⟨3, 2500, 3500, ("keep2").toList⟩] [(1000, 2000)] =
    [⟨1, 0, 1000, ("keep1").toList⟩, ⟨2, 1500, 2500, ("keep2").toList⟩] := by decide
example : parse_srt (save_srt [⟨1, 0, 1000, ("hi").toList⟩, ⟨2, 1500, 2500, ("yo").toList⟩]) =
    [⟨1, 0, 1000, ("hi").toList⟩, ⟨2, 1500, 2500, ("yo").toList⟩] := by decide
example : parse_srt (save_srt [⟨1, 0, 1000, ("a ").toList⟩]) =
    [⟨1, 0, 1000, ("a").toList⟩] := by decide
example : parse_srt (save_srt [⟨1, 0, 1000, ("a\n\u00A0\nb").toList⟩]) =
    [⟨1, 0, 1000, ("a").toList⟩] := by decide
example : ¬ textGood (("a\n\u00A0\nb").toList) := by decide
example : ¬ textGood (("a\u00A0").toList) := by decide
example : textGood (("a\n b").toList) := by decide
example : check_alignment_issues [⟨1, 1000, 3000, []⟩, ⟨2, 2500, 4000, []⟩] =
    [Violation.overlap 1 2 3000 2500 500] := by decide

/-! ### Decimal codec lemmas -/

theorem toDecAux_congr (n : Nat) : ∀ f₁ f₂ : Nat, n < f₁ → n < f₂ →
    toDecAux f₁ n = toDecAux f₂ n := by
  induction n using Nat.strong_induction_on with
  | _ n ih =>
    intro f₁ f₂ h₁ h₂
    cases f₁ with
    | zero => omega
    | succ f₁' =>
      cases f₂ with
      | zero => omega
      | succ f₂' =>
        simp only [toDecAux]
        by_cases h : n < 10
        · simp [h]
        · have hd : n / 10 < n := Nat.div_lt_self (by omega) (by omega)
          simp only [if_neg h]
          rw [ih (n / 10) hd f₁' f₂' (by omega) (by omega)]

theorem toDec_eq (n : Nat) : toDec n =
    if n < 10 then [digitToChar n] else toDec (n / 10) ++ [digitToChar (n % 10)] := by
  by_cases h : n < 10
  · rw [if_pos h]
    show toDecAux (n + 1) n = _
    simp [toDecAux, h]
  · rw [if_neg h]
    have hd : n / 10 < n := Nat.div_lt_self (by omega) (by omega)
    change (if n < 10 then [digitToChar n] else toDecAux n (n / 10) ++ [digitToChar (n % 10)]) =
      toDecAux (n / 10 + 1) (n / 10) ++ [digitToChar (n % 10)]
    rw [if_neg h, toDecAux_congr (n / 10) n (n / 10 + 1) (by omega) (by omega)]

theorem charDigit?_digitToChar (d : Nat) (h : d < 10) :
    charDigit? (digitToChar d) = some d := by
  interval_cases d <;> decide

theorem toDec_ne_nil (n : Nat) : toDec n ≠ [] := by
  rw [toDec_eq]
  by_cases h : n < 10 <;> simp [h]

theorem toDec_digits (n : Nat) : ∀ c ∈ toDec n, (charDigit? c).isSome := by
  induction n using Nat.strong_induction_on with
  | _ n ih =>
    rw [toDec_eq]
    by_cases h : n < 10
    · simp only [if_pos h, List.mem_singleton]
      intro c hc
      rw [hc, charDigit?_digitToChar n h]
      rfl
    · have hd : n / 10 < n := Nat.div_lt_self (by omega) (by omega)
      simp only [if_neg h, List.mem_append, List.mem_singleton]
      intro c hc
      rcases hc with hc | hc
      · exact ih (n / 10) hd c hc
      · rw [hc, charDigit?_digitToChar (n % 10) (by omega)]
        rfl

theorem isSomeDigit_ne (c x : Char) (hc : (charDigit? c).isSome) (hx : charDigit? x = none) :
    c ≠ x := by
  intro h
  rw [h, hx] at hc
  simp at hc

theorem isSomeDigit_not_space (c : Char) (hc : (charDigit? c).isSome) :
    pyIsSpace c = false := by
  unfold charDigit? at hc
  by_cases h : 48 ≤ c.toNat ∧ c.toNat ≤ 57
  · simp only [pyIsSpace, decide_eq_false_iff_not]
    omega
  · rw [if_neg h] at hc
    simp at hc

theorem foldl_pushDigit_toDec (n : Nat) : ∀ a : Nat,
    (toDec n).foldl pushDigit (some a) = some (a * 10 ^ (toDec n).length + n) := by
  induction n using Nat.strong_induction_on with
  | _ n ih =>
    intro a
    rw [toDec_eq]
    by_cases h : n < 10
    · simp only [if_pos h, List.foldl_cons, List.foldl_nil, List.length_singleton, pow_one]
      simp [pushDigit, charDigit?_digitToChar n h, Nat.mul_comm]
    · have hd : n / 10 < n := Nat.div_lt_self (by omega) (by omega)
      have h10 : 10 * (n / 10) + n % 10 = n := by omega
      simp only [if_neg h, List.foldl_append, List.length_append, List.length_singleton]
      rw [ih (n / 10) hd a]
      have hp : pushDigit (some (a * 10 ^ (toDec (n / 10)).length + n / 10)) (digitToChar (n % 10)) =
          some (10 * (a * 10 ^ (toDec (n / 10)).length + n / 10) + n % 10) := by
        simp [pushDigit, charDigit?_digitToChar (n % 10) (by omega)]
      simp only [List.foldl_cons, List.foldl_nil, hp]
      congr 1
      rw [Nat.mul_add, Nat.add_assoc, h10, pow_succ]
      ring

theorem parseDigits?_toDec (n : Nat) : parseDigits? (toDec n) = some n := by
  unfold parseDigits?
  rw [if_neg (by simp [List.isEmpty_iff, toDec_ne_nil])]
  rw [foldl_pushDigit_toDec n 0]
  simp

theorem foldl_pushDigit_zeros (k : Nat) :
    (List.replicate k '0').foldl pushDigit (some 0) = some 0 := by
  induction k with
  | zero => rfl
  | succ k ih =>
    rw [List.replicate_succ, List.foldl_cons]
    have hz : pushDigit (some 0) '0' = some 0 := by decide
    rw [hz]
    exact ih

theorem parseDigits?_padZeros (w n : Nat) :
    parseDigits? (padZeros w (toDec n)) = some n := by
  unfold padZeros parseDigits?
  rw [if_neg (by simp [List.isEmpty_iff, toDec_ne_nil])]
  rw [List.foldl_append, foldl_pushDigit_zeros]
  rw [foldl_pushDigit_toDec n 0]
  simp

theorem dropWhile_space_eq_self (s : List Char) (h : ∀ c ∈ s, pyIsSpace c = false) :
    s.dropWhile pyIsSpace = s := by
  cases s with
  | nil => rfl
  | cons c t =>
    rw [List.dropWhile_cons, if_neg]
    simp [h c (by simp)]

theorem pyStrip_eq_self (s : List Char) (h : ∀ c ∈ s, pyIsSpace c = false) :
    pyStrip s = s := by
  unfold pyStrip
  rw [dropWhile_space_eq_self s h,
    dropWhile_space_eq_self s.reverse (fun c hc => h c (List.mem_reverse.mp hc)),
    List.reverse_reverse]

theorem pyInt?_of_digits (l : List Char) (hne : l ≠ []) (h : ∀ c ∈ l, (charDigit? c).isSome) :
    pyInt? l = (parseDigits? l).map fun n => (n : Int) := by
  unfold pyInt?
  rw [pyStrip_eq_self l (fun c hc => isSomeDigit_not_space c (h c hc))]
  cases l with
  | nil => exact absurd rfl hne
  | cons c ds =>
    change (if c = '-' then (parseDigits? ds).map fun n => -(n : Int)
      else if c = '+' then (parseDigits? ds).map fun n => (n : Int)
      else (parseDigits? (c :: ds)).map fun n => (n : Int)) = _
    rw [if_neg (isSomeDigit_ne c '-' (h c (by simp)) (by decide)),
      if_neg (isSomeDigit_ne c '+' (h c (by simp)) (by decide))]

theorem padZeros_digits (w n : Nat) : ∀ c ∈ padZeros w (toDec n), (charDigit? c).isSome := by
  intro c hc
  unfold padZeros at hc
  rcases List.mem_append.mp hc with hc | hc
  · rw [List.eq_of_mem_replicate hc]
    decide
  · exact toDec_digits n c hc

theorem pyInt?_padZeros_toDec (w n : Nat) :
    pyInt? (padZeros w (toDec n)) = some ((n : Int)) := by
  rw [pyInt?_of_digits _ (by simp [padZeros, toDec_ne_nil]) (padZeros_digits w n),
    parseDigits?_padZeros]
  rfl

theorem not_mem_of_digits (l : List Char) (h : ∀ c ∈ l, (charDigit? c).isSome) (x : Char)
    (hx : charDigit? x = none) : x ∉ l := by
  intro hm
  have hs := h x hm
  rw [hx] at hs
  simp at hs

/-! ### Split and strip lemmas -/

theorem splitOnChar_ne_nil (c : Char) (s : List Char) : splitOnChar c s ≠ [] := by
  cases s with
  | nil => simp [splitOnChar]
  | cons x xs =>
    simp only [splitOnChar]
    by_cases hx : x = c <;> simp [hx]

theorem splitOnChar_not_mem (c : Char) (s : List Char) (h : c ∉ s) : splitOnChar c s = [s] := by
  induction s with
  | nil => rfl
  | cons x xs ih =>
    have hx : x ≠ c := fun e => h (by simp [e])
    have hxs : c ∉ xs := fun hc => h (by simp [hc])
    simp only [splitOnChar, ih hxs]
    simp [hx]

theorem splitOnChar_append_cons (c : Char) (a b : List Char) (h : c ∉ a) :
    splitOnChar c (a ++ c :: b) = a :: splitOnChar c b := by
  induction a with
  | nil => simp [splitOnChar]
  | cons x xs ih =>
    have hx : x ≠ c := fun e => h (by simp [e])
    have hxs : c ∉ xs := fun hc => h (by simp [hc])
    simp only [List.cons_append, splitOnChar, List.append_eq]
    rw [if_neg hx, ih hxs]
    simp

theorem splitOnChar_no_sep (c : Char) (s : List Char) :
    ∀ p ∈ splitOnChar c s, c ∉ p := by
  induction s with
  | nil =>
    intro p hp
    simp [splitOnChar] at hp
    simp [hp]
  | cons x xs ih =>
    intro p hp
    simp only [splitOnChar] at hp
    cases hb : splitOnChar c xs with
    | nil => exact absurd hb (splitOnChar_ne_nil c xs)
    | cons hh tt =>
      rw [hb] at hp
      by_cases hx : x = c
      · rw [if_pos hx] at hp
        rcases List.mem_cons.mp hp with h1 | h1
        · simp [h1]
        · exact ih p (by rw [hb]; exact h1)
      · rw [if_neg hx] at hp
        simp only [List.headI, List.tail] at hp
        rcases List.mem_cons.mp hp with h1 | h1
        · subst h1
          intro hm
          rcases List.mem_cons.mp hm with h2 | h2
          · exact hx h2.symm
          · exact ih hh (by rw [hb]; simp) h2
        · exact ih p (by rw [hb]; simp [h1])

theorem pyJoin_splitOnChar (c : Char) (s : List Char) :
    pyJoin [c] (splitOnChar c s) = s := by
  induction s with
  | nil => rfl
  | cons x xs ih =>
    simp only [splitOnChar]
    cases hb : splitOnChar c xs with
    | nil => exact absurd hb (splitOnChar_ne_nil c xs)
    | cons hh tt =>
      rw [hb] at ih
      by_cases hx : x = c
      · rw [if_pos hx, hx]
        cases tt with
        | nil => simp [pyJoin] at ih; simp [pyJoin, ih]
        | cons t2 tt' => simp [pyJoin] at ih; simp [pyJoin, ih]
      · rw [if_neg hx]
        simp only [List.headI, List.tail]
        cases tt with
        | nil => simp [pyJoin] at ih; simp [pyJoin, ih]
        | cons t2 tt' => simp [pyJoin] at ih; simp [pyJoin, ih]

theorem dropWhile_all_append (p : Char → Bool) (pre rest : List Char)
    (h : ∀ c ∈ pre, p c = true) : (pre ++ rest).dropWhile p = rest.dropWhile p := by
  induction pre with
  | nil => rfl
  | cons x xs ih =>
    rw [List.cons_append, List.dropWhile_cons, if_pos (h x (by simp))]
    exact ih fun c hc => h c (by simp [hc])

theorem pyStrip_sandwich (pre s post : List Char) (hpre : ∀ c ∈ pre, pyIsSpace c = true)
    (hpost : ∀ c ∈ post, pyIsSpace c = true) (hs : ∀ c ∈ s, pyIsSpace c = false) :
    pyStrip (pre ++ s ++ post) = s := by
  unfold pyStrip
  rw [List.append_assoc, dropWhile_all_append pyIsSpace pre (s ++ post) hpre]
  cases s with
  | nil =>
    have h0 : post.dropWhile pyIsSpace = [] :=
      List.dropWhile_eq_nil_iff.mpr fun c hc => by simp [hpost c hc]
    rw [List.nil_append, h0]
    rfl
  | cons c s' =>
    rw [List.cons_append, List.dropWhile_cons, if_neg (by simp [hs c (by simp)])]
    have hrev : (c :: (s' ++ post)).reverse = post.reverse ++ (s'.reverse ++ [c]) := by
      simp
    rw [hrev,
      dropWhile_all_append pyIsSpace post.reverse _
        (fun x hx => hpost x (List.mem_reverse.mp hx)),
      dropWhile_space_eq_self _ (by
        intro x hx
        rcases List.mem_append.mp hx with h1 | h1
        · exact hs x (by simp [List.mem_reverse.mp h1])
        · rw [List.mem_singleton.mp h1]; exact hs c (by simp))]
    simp

theorem pyStrip_core (c d : Char) (mid pre post : List Char)
    (hpre : ∀ x ∈ pre, pyIsSpace x = true) (hpost : ∀ x ∈ post, pyIsSpace x = true)
    (hc : pyIsSpace c = false) (hd : pyIsSpace d = false) :
    pyStrip (pre ++ (c :: (mid ++ [d])) ++ post) = c :: (mid ++ [d]) := by
  unfold pyStrip
  rw [List.append_assoc, dropWhile_all_append pyIsSpace pre _ hpre]
  rw [List.cons_append, List.dropWhile_cons, if_neg (by simp [hc])]
  have hrev : (c :: ((mid ++ [d]) ++ post)).reverse =
      post.reverse ++ (d :: (mid.reverse ++ [c])) := by
    simp
  rw [hrev, dropWhile_all_append pyIsSpace post.reverse _
      (fun x hx => hpost x (List.mem_reverse.mp hx)),
    List.dropWhile_cons, if_neg (by simp [hd])]
  simp

/-! ### Time codec round trip -/

theorem msSplitParts_comma (a b : List Char) (ha : ',' ∉ a) (hb : ',' ∉ b) :
    msSplitParts (a ++ ',' :: b) = some (a, b) := by
  unfold msSplitParts
  rw [if_pos (show ',' ∈ a ++ ',' :: b by simp)]
  rw [splitOnChar_append_cons ',' a b ha, splitOnChar_not_mem ',' b hb]
  rfl

theorem timeFields_three (A B C D : List Char) (vA vB vC vD : Int)
    (pA : pyInt? A = some vA) (pB : pyInt? B = some vB) (pC : pyInt? C = some vC)
    (pD : pyInt? D = some vD) :
    timeFieldsValue [A, B, C] D = some ((vA * 3600 + vB * 60 + vC) * 1000 + vD) := by
  simp [timeFieldsValue, pA, pB, pC, pD]

theorem parse_time_fields (A B C D : List Char)
    (hA : ∀ c ∈ A, (charDigit? c).isSome) (hB : ∀ c ∈ B, (charDigit? c).isSome)
    (hC : ∀ c ∈ C, (charDigit? c).isSome) (hD : ∀ c ∈ D, (charDigit? c).isSome)
    (vA vB vC vD : Int)
    (pA : pyInt? A = some vA) (pB : pyInt? B = some vB) (pC : pyInt? C = some vC)
    (pD : pyInt? D = some vD) :
    parse_time_to_ms (A ++ ':' :: (B ++ ':' :: (C ++ ',' :: D))) =
      some ((vA * 3600 + vB * 60 + vC) * 1000 + vD) := by
  unfold parse_time_to_ms
  have hall : ∀ c ∈ A ++ ':' :: (B ++ ':' :: (C ++ ',' :: D)), pyIsSpace c = false := by
    intro c hc
    simp only [List.mem_append, List.mem_cons] at hc
    rcases hc with h1 | rfl | h1 | rfl | h1 | rfl | h1
    · exact isSomeDigit_not_space c (hA c h1)
    · decide
    · exact isSomeDigit_not_space c (hB c h1)
    · decide
    · exact isSomeDigit_not_space c (hC c h1)
    · decide
    · exact isSomeDigit_not_space c (hD c h1)
  rw [pyStrip_eq_self _ hall]
  have hgrp : A ++ ':' :: (B ++ ':' :: (C ++ ',' :: D)) =
      (A ++ ':' :: (B ++ ':' :: C)) ++ ',' :: D := by simp
  have hcomma : ',' ∉ A ++ ':' :: (B ++ ':' :: C) := by
    intro hm
    simp only [List.mem_append, List.mem_cons] at hm
    rcases hm with h1 | h1 | h1 | h1 | h1
    · exact not_mem_of_digits A hA ',' (by decide) h1
    · exact absurd h1 (by decide)
    · exact not_mem_of_digits B hB ',' (by decide) h1
    · exact absurd h1 (by decide)
    · exact not_mem_of_digits C hC ',' (by decide) h1
  rw [hgrp, msSplitParts_comma _ _ hcomma (not_mem_of_digits D hD ',' (by decide)),
    Option.some_bind]
  show timeFieldsValue (splitOnChar ':' (A ++ ':' :: (B ++ ':' :: C))) D = _
  rw [splitOnChar_append_cons ':' A _ (not_mem_of_digits A hA ':' (by decide)),
    splitOnChar_append_cons ':' B C (not_mem_of_digits B hB ':' (by decide)),
    splitOnChar_not_mem ':' C (not_mem_of_digits C hC ':' (by decide))]
  exact timeFields_three A B C D vA vB vC vD pA pB pC pD

theorem format_eq (t : Int) (ht : 0 ≤ t) :
    format_ms_to_srt t =
      padZeros 2 (toDec ((((t.ediv 1000).ediv 60).ediv 60).toNat)) ++ ':' ::
      (padZeros 2 (toDec ((((t.ediv 1000).ediv 60).emod 60).toNat)) ++ ':' ::
      (padZeros 2 (toDec (((t.ediv 1000).emod 60).toNat)) ++ ',' ::
        padZeros 3 (toDec ((t.emod 1000).toNat)))) := by
  have hsec : 0 ≤ t.ediv 1000 := Int.ediv_nonneg ht (by norm_num)
  have hmin : 0 ≤ (t.ediv 1000).ediv 60 := Int.ediv_nonneg hsec (by norm_num)
  have hhrs : 0 ≤ ((t.ediv 1000).ediv 60).ediv 60 := Int.ediv_nonneg hmin (by norm_num)
  have hmsp : 0 ≤ t.emod 1000 := Int.emod_nonneg t (by norm_num)
  have hs2 : 0 ≤ (t.ediv 1000).emod 60 := Int.emod_nonneg _ (by norm_num)
  have hm2 : 0 ≤ ((t.ediv 1000).ediv 60).emod 60 := Int.emod_nonneg _ (by norm_num)
  simp only [format_ms_to_srt, pyPad]
  rw [if_neg (by omega), if_neg (by omega), if_neg (by omega), if_neg (by omega)]

theorem parse_format_roundtrip (t : Int) (ht : 0 ≤ t) :
    parse_time_to_ms (format_ms_to_srt t) = some t := by
  have hsec : 0 ≤ t.ediv 1000 := Int.ediv_nonneg ht (by norm_num)
  have hmin : 0 ≤ (t.ediv 1000).ediv 60 := Int.ediv_nonneg hsec (by norm_num)
  have hhrs : 0 ≤ ((t.ediv 1000).ediv 60).ediv 60 := Int.ediv_nonneg hmin (by norm_num)
  have hmsp : 0 ≤ t.emod 1000 := Int.emod_nonneg t (by norm_num)
  have hs2 : 0 ≤ (t.ediv 1000).emod 60 := Int.emod_nonneg _ (by norm_num)
  have hm2 : 0 ≤ ((t.ediv 1000).ediv 60).emod 60 := Int.emod_nonneg _ (by norm_num)
  rw [format_eq t ht,
    parse_time_fields _ _ _ _ (padZeros_digits _ _) (padZeros_digits _ _)
      (padZeros_digits _ _) (padZeros_digits _ _) _ _ _ _
      (pyInt?_padZeros_toDec _ _) (pyInt?_padZeros_toDec _ _)
      (pyInt?_padZeros_toDec _ _) (pyInt?_padZeros_toDec _ _)]
  congr 1
  rw [Int.toNat_of_nonneg hhrs, Int.toNat_of_nonneg hm2, Int.toNat_of_nonneg hs2,
    Int.toNat_of_nonneg hmsp]
  have e1 : 1000 * (t.ediv 1000) + t.emod 1000 = t := Int.ediv_add_emod t 1000
  have e2 : 60 * ((t.ediv 1000).ediv 60) + (t.ediv 1000).emod 60 = t.ediv 1000 :=
    Int.ediv_add_emod _ 60
  have e3 : 60 * (((t.ediv 1000).ediv 60).ediv 60) + ((t.ediv 1000).ediv 60).emod 60 =
      (t.ediv 1000).ediv 60 := Int.ediv_add_emod _ 60
  omega

/-! ### Remapper lemmas -/

theorem mapTimeAux_passed (t : Int) : ∀ (pre : List (Int × Int)) (off : Int)
    (rest : List (Int × Int)), (∀ p ∈ pre, p.1 ≤ t ∧ p.2 ≤ t) →
    mapTimeAux t off (pre ++ rest) = mapTimeAux t (off + cutLen pre) rest := by
  intro pre
  induction pre with
  | nil => intro off rest _; simp [cutLen]
  | cons p pre' ih =>
    intro off rest hp
    obtain ⟨s, e⟩ := p
    have hs := (hp (s, e) (by simp)).1
    have he := (hp (s, e) (by simp)).2
    simp only [List.cons_append, mapTimeAux,
      if_neg (by omega : ¬ t < s), if_neg (by omega : ¬ t < e), List.append_eq]
    rw [ih (off + (e - s)) rest (fun q hq => hp q (by simp [hq]))]
    congr 1
    simp [cutLen]
    ring

theorem map_time_stop_before (t : Int) (pre : List (Int × Int)) (s e : Int)
    (post : List (Int × Int)) (hpre : ∀ p ∈ pre, p.1 ≤ t ∧ p.2 ≤ t) (hts : t < s) :
    map_time t (pre ++ (s, e) :: post) = (t - cutLen pre, false) := by
  unfold map_time
  rw [mapTimeAux_passed t pre 0 _ hpre]
  simp only [mapTimeAux, if_pos hts]
  congr 1
  ring

theorem map_time_stop_inside (t : Int) (pre : List (Int × Int)) (s e : Int)
    (post : List (Int × Int)) (hpre : ∀ p ∈ pre, p.1 ≤ t ∧ p.2 ≤ t)
    (hst : s ≤ t) (hte : t < e) :
    map_time t (pre ++ (s, e) :: post) = (s - cutLen pre, true) := by
  unfold map_time
  rw [mapTimeAux_passed t pre 0 _ hpre]
  simp only [mapTimeAux, if_neg (by omega : ¬ t < s), if_pos hte]
  congr 1
  ring

theorem map_time_all_passed (t : Int) (cuts : List (Int × Int))
    (h : ∀ p ∈ cuts, p.1 ≤ t ∧ p.2 ≤ t) :
    map_time t cuts = (t - cutLen cuts, false) := by
  unfold map_time
  have h2 := mapTimeAux_passed t cuts 0 [] h
  rw [List.append_nil] at h2
  rw [h2]
  simp only [mapTimeAux]
  congr 1
  ring

theorem mapTimeAux_lower (l : List (Int × Int)) : ∀ (off t b : Int),
    b ≤ t → (∀ p ∈ l, b ≤ p.1) → (∀ p ∈ l, p.1 < p.2) →
    List.Pairwise (fun p q : Int × Int => p.2 ≤ q.1) l →
    b - off ≤ (mapTimeAux t off l).1 := by
  induction l with
  | nil =>
    intro off t b hbt _ _ _
    simp [mapTimeAux]
    omega
  | cons p rest ih =>
    intro off t b hbt hstart hpos hpw
    obtain ⟨s, e⟩ := p
    rw [List.pairwise_cons] at hpw
    have hbs : b ≤ s := hstart (s, e) (by simp)
    simp only [mapTimeAux]
    by_cases h1 : t < s
    · simp only [if_pos h1]
      simp
      omega
    · by_cases h2 : t < e
      · simp only [if_neg h1, if_pos h2]
        simp
        omega
      · simp only [if_neg h1, if_neg h2]
        have hrec := ih (off + (e - s)) t e (by omega) (fun q hq => hpw.1 q hq)
          (fun q hq => hpos q (by simp [hq])) hpw.2
        omega

theorem mapTimeAux_mono (l : List (Int × Int)) : ∀ (off t1 t2 : Int), t1 ≤ t2 →
    (∀ p ∈ l, p.1 < p.2) → List.Pairwise (fun p q : Int × Int => p.2 ≤ q.1) l →
    (mapTimeAux t1 off l).1 ≤ (mapTimeAux t2 off l).1 := by
  induction l with
  | nil =>
    intro off t1 t2 ht _ _
    simp [mapTimeAux]
    omega
  | cons p rest ih =>
    intro off t1 t2 ht hpos hpw
    obtain ⟨s, e⟩ := p
    rw [List.pairwise_cons] at hpw
    have hse : s < e := hpos (s, e) (by simp)
    simp only [mapTimeAux]
    by_cases a1 : t1 < s
    · simp only [if_pos a1]
      by_cases a2 : t2 < s
      · simp only [if_pos a2]
        simp
        omega
      · by_cases a3 : t2 < e
        · simp only [if_neg a2, if_pos a3]
          simp
          omega
        · simp only [if_neg a2, if_neg a3]
          have hlow := mapTimeAux_lower rest (off + (e - s)) t2 e (by omega)
            (fun q hq => hpw.1 q hq) (fun q hq => hpos q (by simp [hq])) hpw.2
          simp
          omega
    · by_cases b1 : t1 < e
      · simp only [if_neg a1, if_pos b1]
        have ha2 : ¬ t2 < s := by omega
        by_cases b2 : t2 < e
        · simp only [if_neg ha2, if_pos b2]
          simp
        · simp only [if_neg ha2, if_neg b2]
          have hlow := mapTimeAux_lower rest (off + (e - s)) t2 e (by omega)
            (fun q hq => hpw.1 q hq) (fun q hq => hpos q (by simp [hq])) hpw.2
          simp
          omega
      · have ha1 : ¬ t2 < s := by omega
        have hb1 : ¬ t2 < e := by omega
        simp only [if_neg a1, if_neg b1, if_neg ha1, if_neg hb1]
        exact ih (off + (e - s)) t1 t2 ht (fun q hq => hpos q (by simp [hq])) hpw.2

/-! ### Reconstructor lemmas -/

theorem applyCutsAux_eq (cuts : List (Int × Int)) : ∀ (subs : List Subtitle) (n : Int),
    applyCutsAux cuts n subs = renumberFrom n ((subs.map fun sub =>
      (⟨sub.index, (map_time sub.start cuts).1, (map_time sub.stop cuts).1, sub.text⟩ :
        Subtitle)).filter fun r => !decide (r.stop - r.start < 100)) := by
  intro subs
  induction subs with
  | nil => intro n; rfl
  | cons sub rest ih =>
    intro n
    simp only [applyCutsAux, List.map_cons, List.filter_cons]
    by_cases h : (map_time sub.stop cuts).1 - (map_time sub.start cuts).1 < 100
    · rw [if_pos h, ih n]
      simp [h]
    · rw [if_neg h, ih (n + 1)]
      simp [h, renumberFrom]

theorem applyCutsAux_min_duration (cuts : List (Int × Int)) :
    ∀ (subs : List Subtitle) (n : Int) (r : Subtitle), r ∈ applyCutsAux cuts n subs →
      100 ≤ r.stop - r.start := by
  intro subs
  induction subs with
  | nil => intro n r hr; simp [applyCutsAux] at hr
  | cons sub rest ih =>
    intro n r hr
    simp only [applyCutsAux] at hr
    by_cases h : (map_time sub.stop cuts).1 - (map_time sub.start cuts).1 < 100
    · rw [if_pos h] at hr
      exact ih n r hr
    · rw [if_neg h] at hr
      rcases List.mem_cons.mp hr with h1 | h1
      · subst h1
        simp
        omega
      · exact ih (n + 1) r h1

/-! ### Validator lemmas -/

theorem issuesFor_not_nonPos (prev : Option Subtitle) (c : Subtitle)
    (h : c.start < c.stop) :
    ∀ v ∈ issuesFor prev c, ∀ i s e, v ≠ Violation.nonPositiveDuration i s e := by
  intro v hv i s e
  unfold issuesFor at hv
  rw [if_neg (by omega)] at hv
  cases prev with
  | none => simp at hv
  | some p =>
    simp only [List.nil_append] at hv
    rcases List.mem_append.mp hv with h1 | h1
    · split_ifs at h1 with hc
      · rw [List.mem_singleton.mp h1]
        exact fun he => Violation.noConfusion he
      · simp at h1
    · split_ifs at h1 with hc
      · rw [List.mem_singleton.mp h1]
        exact fun he => Violation.noConfusion he
      · simp at h1

theorem checkAux_no_nonPos : ∀ (subs : List Subtitle) (prev : Option Subtitle),
    (∀ r ∈ subs, r.start < r.stop) →
    ∀ v ∈ checkAux prev subs, ∀ i s e, v ≠ Violation.nonPositiveDuration i s e := by
  intro subs
  induction subs with
  | nil => intro prev _ v hv; simp [checkAux] at hv
  | cons c rest ih =>
    intro prev hall v hv
    simp only [checkAux] at hv
    rcases List.mem_append.mp hv with h1 | h1
    · exact issuesFor_not_nonPos prev c (hall c (by simp)) v h1
    · exact ih (some c) (fun r hr => hall r (by simp [hr])) v h1

theorem issuesFor_eq_nil_none (c : Subtitle) :
    issuesFor none c = [] ↔ c.start < c.stop := by
  unfold issuesFor
  split_ifs with h <;> simp <;> omega

theorem issuesFor_eq_nil_some (p c : Subtitle) :
    issuesFor (some p) c = [] ↔ (c.start < c.stop ∧ pairOk p c) := by
  unfold issuesFor pairOk
  split_ifs <;> simp <;> omega

theorem checkAux_nil_iff (subs : List Subtitle) : ∀ prev : Option Subtitle,
    checkAux prev subs = [] ↔
      ((∀ r ∈ subs, r.start < r.stop) ∧ List.Chain' pairOk subs ∧
        ∀ p, prev = some p → ∀ c ∈ subs.head?, pairOk p c) := by
  induction subs with
  | nil => intro prev; simp [checkAux]
  | cons c rest ih =>
    intro prev
    simp only [checkAux, List.append_eq_nil]
    rw [ih (some c)]
    constructor
    · rintro ⟨hif, h1, h2, h3⟩
      have hcr : c.start < c.stop ∧ ∀ p, prev = some p → pairOk p c := by
        cases prev with
        | none =>
          exact ⟨(issuesFor_eq_nil_none c).mp hif, fun p hp => Option.noConfusion hp⟩
        | some q =>
          obtain ⟨ha, hb⟩ := (issuesFor_eq_nil_some q c).mp hif
          refine ⟨ha, fun p hp => ?_⟩
          injection hp with h
          subst h
          exact hb
      refine ⟨?_, ?_, ?_⟩
      · intro r hr
        rcases List.mem_cons.mp hr with rfl | hr'
        · exact hcr.1
        · exact h1 r hr'
      · rw [List.chain'_cons']
        exact ⟨fun y hy => h3 c rfl y hy, h2⟩
      · intro p hp y hy
        rw [List.head?_cons, Option.mem_def] at hy
        injection hy with h
        subst h
        exact hcr.2 p hp
    · rintro ⟨h1, h2, h3⟩
      rw [List.chain'_cons'] at h2
      have hif : issuesFor prev c = [] := by
        cases prev with
        | none => exact (issuesFor_eq_nil_none c).mpr (h1 c (by simp))
        | some q =>
          refine (issuesFor_eq_nil_some q c).mpr ⟨h1 c (by simp), ?_⟩
          exact h3 q rfl c (by simp)
      refine ⟨hif, fun r hr => h1 r (by simp [hr]), h2.2, ?_⟩
      intro p hp y hy
      injection hp with h
      subst h
      exact h2.1 y hy

/-! ### Cut loading lemmas -/

theorem byStartLe_trans (a b c : Int × Int) (hab : byStartLe a b) (hbc : byStartLe b c) :
    byStartLe a c := by
  simp only [byStartLe, decide_eq_true_eq] at *
  omega

theorem byStartLe_total (a b : Int × Int) : byStartLe a b || byStartLe b a := by
  simp only [byStartLe]
  rcases le_total a.1 b.1 with h | h <;> simp [h]

theorem load_cuts_sorted (data : List CutItem) :
    List.Pairwise (fun a b : Int × Int => a.1 ≤ b.1) (load_cuts data) := by
  unfold load_cuts
  cases h : collectCuts data with
  | none => simp
  | some cuts =>
    show ((cuts.mergeSort byStartLe)).Pairwise _
    have hs := List.sorted_mergeSort byStartLe_trans byStartLe_total cuts
    exact hs.imp fun hab => of_decide_eq_true hab

theorem load_cuts_perm (data : List CutItem) (l : List (Int × Int))
    (h : collectCuts data = some l) : (load_cuts data).Perm l := by
  unfold load_cuts
  rw [h]
  show (l.mergeSort byStartLe).Perm l
  exact List.mergeSort_perm l byStartLe

/-! ### Blank-line separator lemmas -/

theorem sepTail?_none (s : List Char) (h : '\n' ∉ s.takeWhile pyIsSpace) :
    sepTail? s = none := by
  induction s with
  | nil => rfl
  | cons c cs ih =>
    by_cases hc : pyIsSpace c = true
    · rw [List.takeWhile_cons, if_pos hc] at h
      have hcn : c ≠ '\n' := fun e => h (by simp [e])
      have hcs : '\n' ∉ cs.takeWhile pyIsSpace := fun e => h (by simp [e])
      simp only [sepTail?]
      rw [if_pos hc, ih hcs]
      rw [if_neg hcn]
    · simp only [sepTail?]
      rw [if_neg hc]

theorem sepTail?_newline_stop (d : Char) (rs : List Char) (hd : pyIsSpace d = false) :
    sepTail? ('\n' :: d :: rs) = some (d :: rs) := by
  simp [sepTail?, hd]
  decide

theorem findMatch_cons_not_newline (c : Char) (cs : List Char) (hc : c ≠ '\n') :
    findMatch (c :: cs) = (findMatch cs).map fun p => (c :: p.1, p.2) := by
  simp only [findMatch]
  rw [if_neg hc]
  cases h : findMatch cs with
  | none => simp
  | some p => obtain ⟨pre, post⟩ := p; simp

theorem findMatch_newline_nomatch (cs : List Char) (h : sepTail? cs = none) :
    findMatch ('\n' :: cs) = (findMatch cs).map fun p => ('\n' :: p.1, p.2) := by
  cases h2 : findMatch cs with
  | none => simp [findMatch, h, h2]
  | some p => obtain ⟨pre, post⟩ := p; simp [findMatch, h, h2]

theorem findMatch_newline_match (cs r : List Char) (h : sepTail? cs = some r) :
    findMatch ('\n' :: cs) = some ([], r) := by
  simp [findMatch, h]

theorem findMatch_append_line (L s : List Char) (hL : '\n' ∉ L) :
    findMatch (L ++ s) = (findMatch s).map fun p => (L ++ p.1, p.2) := by
  induction L with
  | nil => cases h : findMatch s with
    | none => simp [h]
    | some p => obtain ⟨pre, post⟩ := p; simp [h]
  | cons c cs ih =>
    have hc : c ≠ '\n' := fun e => hL (by simp [e])
    have hcs : '\n' ∉ cs := fun e => hL (by simp [e])
    rw [List.cons_append, findMatch_cons_not_newline c _ hc, ih hcs]
    cases h : findMatch s with
    | none => simp
    | some p => obtain ⟨pre, post⟩ := p; simp

theorem takeWhile_append_stop (L s : List Char) (h : ∃ c ∈ L, pyIsSpace c = false) :
    (L ++ s).takeWhile pyIsSpace = L.takeWhile pyIsSpace := by
  induction L with
  | nil =>
    obtain ⟨c, hc, _⟩ := h
    simp at hc
  | cons c cs ih =>
    by_cases hc : pyIsSpace c = true
    · rw [List.cons_append, List.takeWhile_cons, if_pos hc, List.takeWhile_cons, if_pos hc]
      obtain ⟨d, hd, hds⟩ := h
      rcases List.mem_cons.mp hd with rfl | hd'
      · simp [hc] at hds
      · rw [ih ⟨d, hd', hds⟩]
    · rw [List.cons_append, List.takeWhile_cons, if_neg hc, List.takeWhile_cons, if_neg hc]

theorem sepTail?_goodLine_append (L s : List Char) (hL : goodLine L) :
    sepTail? (L ++ s) = none := by
  apply sepTail?_none
  rw [takeWhile_append_stop L s hL.2]
  intro hm
  exact hL.1 (List.takeWhile_subset pyIsSpace hm)

theorem pyJoin_cons_cons (sep x y : List Char) (rest : List (List Char)) :
    pyJoin sep (x :: y :: rest) = x ++ sep ++ pyJoin sep (y :: rest) := rfl

theorem pyJoin_head_tail (sep : List Char) (Ls : List (List Char)) (hne : Ls ≠ []) :
    ∃ s, pyJoin sep Ls = Ls.headI ++ s := by
  cases Ls with
  | nil => exact absurd rfl hne
  | cons L rest =>
    cases rest with
    | nil => exact ⟨[], by simp [pyJoin]⟩
    | cons y t => exact ⟨sep ++ pyJoin sep (y :: t), by simp [pyJoin_cons_cons]⟩

theorem findMatch_lines_none (Ls : List (List Char)) (hLs : ∀ L ∈ Ls, goodLine L) :
    findMatch (pyJoin ['\n'] Ls) = none := by
  induction Ls with
  | nil => rfl
  | cons L rest ih =>
    cases rest with
    | nil =>
      have h := findMatch_append_line L [] (hLs L (by simp)).1
      rw [List.append_nil] at h
      show findMatch L = none
      rw [h]
      rfl
    | cons L2 t =>
      obtain ⟨s, hs⟩ := pyJoin_head_tail ['\n'] (L2 :: t) (by simp)
      have hsep : sepTail? (pyJoin ['\n'] (L2 :: t)) = none := by
        rw [hs]
        exact sepTail?_goodLine_append L2 s (hLs L2 (by simp))
      rw [pyJoin_cons_cons, List.append_assoc, List.singleton_append,
        findMatch_append_line L _ (hLs L (by simp)).1, findMatch_newline_nomatch _ hsep,
        ih (fun x hx => hLs x (by simp [hx]))]
      rfl

theorem findMatch_lines_sep (Ls : List (List Char)) (hLs : ∀ L ∈ Ls, goodLine L)
    (hne : Ls ≠ []) (d : Char) (rs : List Char) (hd : pyIsSpace d = false) :
    findMatch (pyJoin ['\n'] Ls ++ '\n' :: '\n' :: d :: rs) =
      some (pyJoin ['\n'] Ls, d :: rs) := by
  induction Ls with
  | nil => exact absurd rfl hne
  | cons L rest ih =>
    cases rest with
    | nil =>
      show findMatch (L ++ '\n' :: '\n' :: d :: rs) = some (L, d :: rs)
      rw [findMatch_append_line L _ (hLs L (by simp)).1,
        findMatch_newline_match _ _ (sepTail?_newline_stop d rs hd)]
      simp
    | cons L2 t =>
      obtain ⟨s, hs⟩ := pyJoin_head_tail ['\n'] (L2 :: t) (by simp)
      have hsep : sepTail? (pyJoin ['\n'] (L2 :: t) ++ '\n' :: '\n' :: d :: rs) = none := by
        rw [hs, List.append_assoc]
        exact sepTail?_goodLine_append L2 _ (hLs L2 (by simp))
      rw [pyJoin_cons_cons, List.append_assoc, List.append_assoc, List.singleton_append,
        findMatch_append_line L _ (hLs L (by simp)).1, findMatch_newline_nomatch _ hsep,
        ih (fun x hx => hLs x (by simp [hx])) (by simp)]
      simp

theorem sepTail?_length : ∀ (l r : List Char), sepTail? l = some r → r.length < l.length := by
  intro l
  induction l with
  | nil => intro r h; simp [sepTail?] at h
  | cons c cs ih =>
    intro r h
    simp only [sepTail?] at h
    by_cases hc : pyIsSpace c = true
    · rw [if_pos hc] at h
      cases h2 : sepTail? cs with
      | some r' =>
        rw [h2] at h
        injection h with h'
        have h3 := ih r' h2
        rw [← h']
        simp only [List.length_cons]
        omega
      | none =>
        rw [h2] at h
        by_cases hcn : c = '\n'
        · rw [if_pos hcn] at h
          injection h with h'
          subst h'
          simp
        · rw [if_neg hcn] at h
          cases h
    · rw [if_neg hc] at h
      cases h

theorem findMatch_post_length : ∀ (s pre post : List Char),
    findMatch s = some (pre, post) → post.length < s.length := by
  intro s
  induction s with
  | nil => intro pre post h; simp [findMatch] at h
  | cons c cs ih =>
    intro pre post h
    by_cases hc : c = '\n'
    · subst hc
      cases h2 : sepTail? cs with
      | some r =>
        rw [findMatch_newline_match cs r h2] at h
        injection h with h'
        have hr : post = r := (congrArg Prod.snd h').symm
        subst hr
        have := sepTail?_length cs post h2
        simp
        omega
      | none =>
        rw [findMatch_newline_nomatch cs h2] at h
        cases h3 : findMatch cs with
        | none => rw [h3] at h; simp at h
        | some p =>
          obtain ⟨p1, p2⟩ := p
          rw [h3] at h
          simp only [Option.map_some'] at h
          injection h with h'
          have hr : post = p2 := (congrArg Prod.snd h').symm
          subst hr
          have := ih p1 post h3
          simp
          omega
    · rw [findMatch_cons_not_newline c cs hc] at h
      cases h3 : findMatch cs with
      | none => rw [h3] at h; simp at h
      | some p =>
        obtain ⟨p1, p2⟩ := p
        rw [h3] at h
        simp only [Option.map_some'] at h
        injection h with h'
        have hr : post = p2 := (congrArg Prod.snd h').symm
        subst hr
        have := ih p1 post h3
        simp
        omega

theorem splitSepAux_congr : ∀ (f1 : Nat) (s : List Char) (f2 : Nat),
    s.length ≤ f1 → s.length ≤ f2 → splitSepAux f1 s = splitSepAux f2 s := by
  intro f1
  induction f1 with
  | zero =>
    intro s f2 h1 _
    have hs : s = [] := List.length_eq_zero.mp (Nat.le_zero.mp h1)
    subst hs
    cases f2 with
    | zero => rfl
    | succ f2' => simp [splitSepAux, findMatch]
  | succ f1' ih =>
    intro s f2 h1 h2
    cases f2 with
    | zero =>
      have hs : s = [] := List.length_eq_zero.mp (Nat.le_zero.mp h2)
      subst hs
      simp [splitSepAux, findMatch]
    | succ f2' =>
      simp only [splitSepAux]
      cases hm : findMatch s with
      | none => rfl
      | some p =>
        obtain ⟨pre, post⟩ := p
        have hlen := findMatch_post_length s pre post hm
        show pre :: splitSepAux f1' post = pre :: splitSepAux f2' post
        rw [ih post f2' (by omega) (by omega)]

theorem splitSep_eq_none (s : List Char) (h : findMatch s = none) : splitSep s = [s] := by
  unfold splitSep
  cases hf : s.length with
  | zero => rfl
  | succ n => simp [splitSepAux, h]

theorem splitSep_eq_cons (s pre post : List Char) (h : findMatch s = some (pre, post)) :
    splitSep s = pre :: splitSep post := by
  unfold splitSep
  have hlen := findMatch_post_length s pre post h
  cases hf : s.length with
  | zero =>
    have hs : s = [] := List.length_eq_zero.mp hf
    subst hs
    simp [findMatch] at h
  | succ n =>
    simp only [splitSepAux]
    rw [h]
    show pre :: splitSepAux n post = pre :: splitSepAux post.length post
    rw [splitSepAux_congr n post post.length (by omega) (by omega)]

theorem splitSep_join_blocks : ∀ (blocks : List (List Char)),
    (∀ b ∈ blocks, goodBlock b) → blocks ≠ [] →
    splitSep (pyJoin ['\n', '\n'] blocks) = blocks := by
  intro blocks
  induction blocks with
  | nil => intro _ h; exact absurd rfl h
  | cons b rest ih =>
    intro hg _
    cases rest with
    | nil =>
      show splitSep b = [b]
      obtain ⟨⟨Ls, _, hl, hb⟩, _⟩ := hg b (by simp)
      rw [hb]
      exact splitSep_eq_none _ (findMatch_lines_none Ls hl)
    | cons b2 t =>
      obtain ⟨⟨Ls, hne, hl, hb⟩, _⟩ := hg b (by simp)
      obtain ⟨_, d, rs, hb2, hd⟩ := hg b2 (by simp)
      obtain ⟨s2, hs2⟩ := pyJoin_head_tail ['\n', '\n'] (b2 :: t) (by simp)
      have hshape : pyJoin ['\n', '\n'] (b2 :: t) = d :: (rs ++ s2) := by
        rw [hs2]
        show b2 ++ s2 = _
        rw [hb2]
        simp
      have hfm : findMatch (b ++ '\n' :: '\n' :: (d :: (rs ++ s2))) =
          some (b, d :: (rs ++ s2)) := by
        have h := findMatch_lines_sep Ls hl hne d (rs ++ s2) hd
        rw [← hb] at h
        exact h
      have hjoin : pyJoin ['\n', '\n'] (b :: b2 :: t) =
          b ++ '\n' :: '\n' :: (d :: (rs ++ s2)) := by
        rw [pyJoin_cons_cons, hshape, List.append_assoc]
        rfl
      rw [hjoin, splitSep_eq_cons _ _ _ hfm, ← hshape,
        ih (fun x hx => hg x (by simp [hx])) (by simp)]

/-! ### Serialized block helpers -/

theorem format_chars (t : Int) (ht : 0 ≤ t) :
    ∀ c ∈ format_ms_to_srt t, (charDigit? c).isSome ∨ c = ':' ∨ c = ',' := by
  rw [format_eq t ht]
  intro c hc
  simp only [List.mem_append, List.mem_cons] at hc
  rcases hc with h | rfl | h | rfl | h | rfl | h
  · exact Or.inl (padZeros_digits _ _ c h)
  · exact Or.inr (Or.inl rfl)
  · exact Or.inl (padZeros_digits _ _ c h)
  · exact Or.inr (Or.inl rfl)
  · exact Or.inl (padZeros_digits _ _ c h)
  · exact Or.inr (Or.inr rfl)
  · exact Or.inl (padZeros_digits _ _ c h)

theorem format_not_space (t : Int) (ht : 0 ≤ t) :
    ∀ c ∈ format_ms_to_srt t, pyIsSpace c = false := by
  intro c hc
  rcases format_chars t ht c hc with h | rfl | rfl
  · exact isSomeDigit_not_space c h
  · decide
  · decide

theorem format_not_mem (t : Int) (ht : 0 ≤ t) (x : Char) (hx : charDigit? x = none)
    (h1 : x ≠ ':') (h2 : x ≠ ',') : x ∉ format_ms_to_srt t := by
  intro hm
  rcases format_chars t ht x hm with h | rfl | rfl
  · rw [hx] at h
    simp at h
  · exact h1 rfl
  · exact h2 rfl

theorem format_ne_nil (t : Int) (ht : 0 ≤ t) : format_ms_to_srt t ≠ [] := by
  rw [format_eq t ht]
  simp

theorem pyInt?_toDec (n : Nat) : pyInt? (toDec n) = some ((n : Int)) := by
  have h := pyInt?_padZeros_toDec 0 n
  simpa [padZeros] using h

theorem getLastD_append_right (s t : List Char) (ht : t ≠ []) (d : Char) :
    (s ++ t).getLastD d = t.getLastD d := by
  rcases List.eq_nil_or_concat t with rfl | ⟨t', a, rfl⟩
  · exact absurd rfl ht
  · rw [List.concat_eq_append, ← List.append_assoc, List.getLastD_concat,
      List.getLastD_concat]

theorem getLastD_mem (l : List Char) (hne : l ≠ []) (d : Char) : l.getLastD d ∈ l := by
  rcases List.eq_nil_or_concat l with rfl | ⟨t, a, rfl⟩
  · exact absurd rfl hne
  · rw [List.concat_eq_append, List.getLastD_concat]
    simp

theorem headI_append_left (s t : List Char) (hs : s ≠ []) :
    (s ++ t).headI = s.headI := by
  cases s with
  | nil => exact absurd rfl hs
  | cons c cs => rfl

theorem pyStrip_trailing (z post : List Char) (hpost : ∀ x ∈ post, pyIsSpace x = true)
    (hz : z ≠ []) (hh : pyIsSpace z.headI = false) (hl : pyIsSpace (z.getLastD 'a') = false) :
    pyStrip (z ++ post) = z := by
  rcases List.eq_nil_or_concat z with rfl | ⟨mid0, d, rfl⟩
  · exact absurd rfl hz
  · simp only [List.concat_eq_append] at hh hl ⊢
    cases mid0 with
    | nil =>
      have hd : pyIsSpace d = false := by simpa using hh
      have h := pyStrip_sandwich [] [d] post (by simp) hpost (by
        intro c hc
        rw [List.mem_singleton.mp hc]
        exact hd)
      simpa using h
    | cons c mid =>
      have hc : pyIsSpace c = false := by simpa using hh
      have hd : pyIsSpace d = false := by
        have he : ((c :: mid) ++ [d]).getLastD 'a' = d := List.getLastD_concat _ _ _
        rw [he] at hl
        exact hl
      have h := pyStrip_core c d mid [] post (by simp) hpost hc hd
      simpa using h

theorem pyStrip_eq_self_ends (z : List Char) (hz : z ≠ [])
    (hh : pyIsSpace z.headI = false) (hl : pyIsSpace (z.getLastD 'a') = false) :
    pyStrip z = z := by
  have h := pyStrip_trailing z [] (by simp) hz hh hl
  rwa [List.append_nil] at h

theorem parse_time_congr (a b : List Char) (h : pyStrip a = pyStrip b) :
    parse_time_to_ms a = parse_time_to_ms b := by
  unfold parse_time_to_ms
  rw [h]

theorem splitArrow_no_dash (B : List Char) (hB : '-' ∉ B) : splitArrow B = [B] := by
  induction B with
  | nil => rfl
  | cons x xs ih =>
    have hx : x ≠ '-' := fun e => hB (by simp [e])
    have hxs : '-' ∉ xs := fun e => hB (by simp [e])
    rw [splitArrow.eq_def]
    split
    · rename_i heq
      injection heq with h1 _
      exact absurd h1 hx
    · rename_i y ys heq
      injection heq with h1 h2
      subst h1
      subst h2
      rw [ih hxs]
      rfl
    · rename_i heq
      cases heq

theorem splitArrow_split (A B : List Char) (hA : '-' ∉ A) (hB : '-' ∉ B) :
    splitArrow (A ++ '-' :: '-' :: '>' :: B) = [A, B] := by
  induction A with
  | nil =>
    rw [List.nil_append]
    show [] :: splitArrow B = [[], B]
    rw [splitArrow_no_dash B hB]
  | cons x xs ih =>
    have hx : x ≠ '-' := fun e => hA (by simp [e])
    have hxs : '-' ∉ xs := fun e => hA (by simp [e])
    rw [List.cons_append, splitArrow.eq_def]
    split
    · rename_i heq
      injection heq with h1 _
      exact absurd h1 hx
    · rename_i y ys heq
      injection heq with h1 h2
      subst h1
      subst h2
      rw [ih hxs]
      rfl
    · rename_i heq
      cases heq

theorem headI_mem (l : List Char) (h : l ≠ []) : l.headI ∈ l := by
  cases l with
  | nil => exact absurd rfl h
  | cons c t => simp

theorem getLastD_cons_right (c : Char) (Y : List Char) (hY : Y ≠ []) (d : Char) :
    (c :: Y).getLastD d = Y.getLastD d := by
  rw [show c :: Y = [c] ++ Y from rfl, getLastD_append_right _ _ hY]

theorem padZeros_ne_nil (w n : Nat) : padZeros w (toDec n) ≠ [] := by
  simp [padZeros, toDec_ne_nil]

theorem format_headI_digit (t : Int) (ht : 0 ≤ t) :
    (charDigit? ((format_ms_to_srt t).headI)).isSome := by
  rw [format_eq t ht, headI_append_left _ _ (padZeros_ne_nil _ _)]
  exact padZeros_digits _ _ _ (headI_mem _ (padZeros_ne_nil _ _))

theorem format_getLastD_digit (t : Int) (ht : 0 ≤ t) :
    (charDigit? ((format_ms_to_srt t).getLastD 'a')).isSome := by
  rw [format_eq t ht,
    getLastD_append_right _ _ (by simp),
    getLastD_cons_right _ _ (by simp) _,
    getLastD_append_right _ _ (by simp),
    getLastD_cons_right _ _ (by simp) _,
    getLastD_append_right _ _ (by simp),
    getLastD_cons_right _ _ (padZeros_ne_nil _ _) _]
  exact padZeros_digits _ _ _ (getLastD_mem _ (padZeros_ne_nil _ _) _)

theorem intRepr_nonneg (n : Int) (h : 0 ≤ n) : intRepr n = toDec n.toNat := by
  unfold intRepr
  rw [if_neg (by omega)]

theorem intRepr_digits (n : Int) (h : 0 ≤ n) : ∀ c ∈ intRepr n, (charDigit? c).isSome := by
  rw [intRepr_nonneg n h]
  exact toDec_digits _

theorem intRepr_ne_nil (n : Int) (h : 0 ≤ n) : intRepr n ≠ [] := by
  rw [intRepr_nonneg n h]
  exact toDec_ne_nil _

theorem pyInt?_intRepr (n : Int) (h : 0 ≤ n) : pyInt? (intRepr n) = some n := by
  rw [intRepr_nonneg n h, pyInt?_toDec, Int.toNat_of_nonneg h]

theorem textGood_ne_nil (text : List Char) (h : textGood text) : text ≠ [] := by
  intro he
  subst he
  obtain ⟨c, hc, _⟩ := h.1 [] (by simp [splitOnChar])
  simp at hc

theorem timeLine_eq (sub : Subtitle) : timeLine sub =
    (format_ms_to_srt sub.start ++ [' ']) ++
      '-' :: '-' :: '>' :: (' ' :: format_ms_to_srt sub.stop) := by
  show format_ms_to_srt sub.start ++ (' ' :: '-' :: '-' :: '>' :: ' ' :: []) ++
      format_ms_to_srt sub.stop = _
  simp

theorem timeLine_not_mem (sub : Subtitle) (h1 : 0 ≤ sub.start) (h2 : 0 ≤ sub.stop)
    (x : Char) (hx : charDigit? x = none) (hc1 : x ≠ ':') (hc2 : x ≠ ',')
    (hc3 : x ≠ ' ') (hc4 : x ≠ '-') (hc5 : x ≠ '>') : x ∉ timeLine sub := by
  rw [timeLine_eq]
  intro hm
  rcases List.mem_append.mp hm with h | h
  · rcases List.mem_append.mp h with h' | h'
    · exact format_not_mem sub.start h1 x hx hc1 hc2 h'
    · exact hc3 (List.mem_singleton.mp h')
  · rcases List.mem_cons.mp h with rfl | h'
    · exact hc4 rfl
    · rcases List.mem_cons.mp h' with rfl | h'
      · exact hc4 rfl
      · rcases List.mem_cons.mp h' with rfl | h'
        · exact hc5 rfl
        · rcases List.mem_cons.mp h' with rfl | h'
          · exact hc3 rfl
          · exact format_not_mem sub.stop h2 x hx hc1 hc2 h'

theorem timeLine_strip (sub : Subtitle) (h1 : 0 ≤ sub.start) (h2 : 0 ≤ sub.stop) :
    pyStrip (timeLine sub) = timeLine sub := by
  apply pyStrip_eq_self_ends
  · rw [timeLine_eq]
    simp
  · rw [timeLine_eq, headI_append_left _ _ (by simp [format_ne_nil sub.start h1]),
      headI_append_left _ _ (format_ne_nil sub.start h1)]
    exact isSomeDigit_not_space _ (format_headI_digit sub.start h1)
  · rw [timeLine_eq, getLastD_append_right _ _ (by simp),
      getLastD_cons_right _ _ (by simp) _, getLastD_cons_right _ _ (by simp) _,
      getLastD_cons_right _ _ (by simp) _,
      getLastD_cons_right _ _ (format_ne_nil sub.stop h2) _]
    exact isSomeDigit_not_space _ (format_getLastD_digit sub.stop h2)

theorem parseBlock_blockOf (sub : Subtitle) (hidx : 0 ≤ sub.index) (hstart : 0 ≤ sub.start)
    (hstop : 0 ≤ sub.stop) (htext : textGood sub.text) :
    parseBlock (blockOf sub) = some sub := by
  have htne : sub.text ≠ [] := textGood_ne_nil _ htext
  have hIne : intRepr sub.index ≠ [] := intRepr_ne_nil _ hidx
  have hhead : pyIsSpace ((blockOf sub).headI) = false := by
    unfold blockOf
    rw [headI_append_left _ _ hIne]
    exact isSomeDigit_not_space _ (intRepr_digits _ hidx _ (headI_mem _ hIne))
  have hlast : pyIsSpace ((blockOf sub).getLastD 'a') = false := by
    unfold blockOf
    rw [getLastD_append_right _ _ (by simp), getLastD_cons_right _ _ (by simp) _,
      getLastD_append_right _ _ (by simp), getLastD_cons_right _ _ htne _]
    exact htext.2
  have hstrip : pyStrip (blockOf sub) = blockOf sub :=
    pyStrip_eq_self_ends _ (by unfold blockOf; simp [hIne]) hhead hlast
  unfold parseBlock
  rw [hstrip]
  have hnlI : '\n' ∉ intRepr sub.index := by
    intro hm
    have h := intRepr_digits _ hidx '\n' hm
    rw [show charDigit? '\n' = none from by decide] at h
    simp at h
  have hnlT : '\n' ∉ timeLine sub :=
    timeLine_not_mem sub hstart hstop '\n' (by decide) (by decide) (by decide) (by decide)
      (by decide) (by decide)
  have hsplit : splitOnChar '\n' (blockOf sub) =
      intRepr sub.index :: timeLine sub :: splitOnChar '\n' sub.text := by
    unfold blockOf
    rw [splitOnChar_append_cons '\n' _ _ hnlI, splitOnChar_append_cons '\n' _ _ hnlT]
  rw [hsplit]
  simp only [parseBlockLines]
  have hI : pyStrip (intRepr sub.index) = intRepr sub.index :=
    pyStrip_eq_self _ fun c hc => isSomeDigit_not_space c (intRepr_digits _ hidx c hc)
  rw [hI, pyInt?_intRepr _ hidx, Option.some_bind, timeLine_strip sub hstart hstop]
  have hArrow : splitArrow (timeLine sub) =
      [format_ms_to_srt sub.start ++ [' '], ' ' :: format_ms_to_srt sub.stop] := by
    rw [timeLine_eq]
    apply splitArrow_split
    · intro hm
      rcases List.mem_append.mp hm with h | h
      · exact format_not_mem sub.start hstart '-' (by decide) (by decide) (by decide) h
      · simp at h
    · intro hm
      rcases List.mem_cons.mp hm with h | h
      · cases h
      · exact format_not_mem sub.stop hstop '-' (by decide) (by decide) (by decide) h
  rw [hArrow]
  simp only [twoParts, Option.some_bind]
  have hP1 : parse_time_to_ms (format_ms_to_srt sub.start ++ [' ']) = some sub.start := by
    have hc := parse_time_congr (format_ms_to_srt sub.start ++ [' '])
      (format_ms_to_srt sub.start) (by
        rw [pyStrip_eq_self _ (format_not_space _ hstart)]
        have h := pyStrip_sandwich [] (format_ms_to_srt sub.start) [' '] (by simp)
          (by intro x hx; rw [List.mem_singleton.mp hx]; rfl)
          (format_not_space _ hstart)
        simpa using h)
    rw [hc, parse_format_roundtrip _ hstart]
  have hP2 : parse_time_to_ms (' ' :: format_ms_to_srt sub.stop) = some sub.stop := by
    have hc := parse_time_congr (' ' :: format_ms_to_srt sub.stop)
      (format_ms_to_srt sub.stop) (by
        rw [pyStrip_eq_self _ (format_not_space _ hstop)]
        have h := pyStrip_sandwich [' '] (format_ms_to_srt sub.stop) []
          (by intro x hx; rw [List.mem_singleton.mp hx]; rfl) (by simp)
          (format_not_space _ hstop)
        simpa using h)
    rw [hc, parse_format_roundtrip _ hstop]
  rw [hP1, Option.some_bind, hP2]
  simp only [Option.map_some']
  rw [pyJoin_splitOnChar]

theorem blockOf_ne_nil (sub : Subtitle) : blockOf sub ≠ [] := by
  unfold blockOf
  simp

theorem blockOf_headI_nonspace (sub : Subtitle) (hidx : 0 ≤ sub.index) :
    pyIsSpace ((blockOf sub).headI) = false := by
  have hIne : intRepr sub.index ≠ [] := intRepr_ne_nil _ hidx
  unfold blockOf
  rw [headI_append_left _ _ hIne]
  exact isSomeDigit_not_space _ (intRepr_digits _ hidx _ (headI_mem _ hIne))

theorem blockOf_getLastD_nonspace (sub : Subtitle) (htext : textGood sub.text) :
    pyIsSpace ((blockOf sub).getLastD 'a') = false := by
  have htne : sub.text ≠ [] := textGood_ne_nil _ htext
  unfold blockOf
  rw [getLastD_append_right _ _ (by simp), getLastD_cons_right _ _ (by simp) _,
    getLastD_append_right _ _ (by simp), getLastD_cons_right _ _ htne _]
  exact htext.2

theorem blockOf_lines (sub : Subtitle) : blockOf sub =
    pyJoin ['\n'] (intRepr sub.index :: timeLine sub :: splitOnChar '\n' sub.text) := by
  cases hL : splitOnChar '\n' sub.text with
  | nil => exact absurd hL (splitOnChar_ne_nil _ _)
  | cons l0 ls =>
    rw [pyJoin_cons_cons, pyJoin_cons_cons]
    have hj : pyJoin ['\n'] (l0 :: ls) = sub.text := by
      rw [← hL]
      exact pyJoin_splitOnChar '\n' sub.text
    rw [hj]
    unfold blockOf
    simp

theorem goodBlock_blockOf (sub : Subtitle) (hidx : 0 ≤ sub.index) (hstart : 0 ≤ sub.start)
    (hstop : 0 ≤ sub.stop) (htext : textGood sub.text) : goodBlock (blockOf sub) := by
  have hIne : intRepr sub.index ≠ [] := intRepr_ne_nil _ hidx
  constructor
  · refine ⟨intRepr sub.index :: timeLine sub :: splitOnChar '\n' sub.text, by simp, ?_,
      blockOf_lines sub⟩
    intro L hL
    rcases List.mem_cons.mp hL with rfl | hL
    · constructor
      · intro hm
        have h := intRepr_digits _ hidx '\n' hm
        rw [show charDigit? '\n' = none from by decide] at h
        simp at h
      · exact ⟨_, headI_mem _ hIne,
          isSomeDigit_not_space _ (intRepr_digits _ hidx _ (headI_mem _ hIne))⟩
    · rcases List.mem_cons.mp hL with rfl | hL
      · constructor
        · exact timeLine_not_mem sub hstart hstop '\n' (by decide) (by decide) (by decide)
            (by decide) (by decide) (by decide)
        · refine ⟨(timeLine sub).headI, ?_, ?_⟩
          · apply headI_mem
            rw [timeLine_eq]
            simp
          · rw [timeLine_eq, headI_append_left _ _ (by simp [format_ne_nil sub.start hstart]),
              headI_append_left _ _ (format_ne_nil sub.start hstart)]
            exact isSomeDigit_not_space _ (format_headI_digit sub.start hstart)
      · exact ⟨splitOnChar_no_sep '\n' sub.text L hL, htext.1 L hL⟩
  · cases hI : intRepr sub.index with
    | nil => exact absurd hI hIne
    | cons c cs =>
      refine ⟨c, cs ++ '\n' :: (timeLine sub ++ '\n' :: sub.text), ?_, ?_⟩
      · unfold blockOf
        rw [hI]
        rfl
      · exact isSomeDigit_not_space _ (intRepr_digits _ hidx c (by rw [hI]; simp))

theorem pyJoin_append (sep : List Char) : ∀ (xs ys : List (List Char)), xs ≠ [] → ys ≠ [] →
    pyJoin sep (xs ++ ys) = pyJoin sep xs ++ sep ++ pyJoin sep ys := by
  intro xs
  induction xs with
  | nil => intro ys h _; exact absurd rfl h
  | cons x xs' ih =>
    intro ys _ hy
    cases xs' with
    | nil =>
      cases ys with
      | nil => exact absurd rfl hy
      | cons y t => rw [List.singleton_append, pyJoin_cons_cons]; rfl
    | cons x2 t2 =>
      have ih' := ih ys (by simp) hy
      rw [List.cons_append] at ih'
      rw [List.cons_append, List.cons_append, pyJoin_cons_cons, ih', pyJoin_cons_cons]
      simp [List.append_assoc]

theorem pyJoin_last_mem (sep : List Char) : ∀ (Ls : List (List Char)), Ls ≠ [] →
    ∃ s b, b ∈ Ls ∧ pyJoin sep Ls = s ++ b := by
  intro Ls
  induction Ls with
  | nil => intro h; exact absurd rfl h
  | cons L rest ih =>
    intro _
    cases rest with
    | nil => exact ⟨[], L, by simp, by simp [pyJoin]⟩
    | cons y t =>
      obtain ⟨s, b, hb, hs⟩ := ih (by simp)
      refine ⟨L ++ sep ++ s, b, by simp [hb], ?_⟩
      rw [pyJoin_cons_cons, hs]
      simp [List.append_assoc]

theorem save_srt_eq : ∀ (subs : List Subtitle), subs ≠ [] →
    save_srt subs = pyJoin ['\n', '\n'] (subs.map blockOf) ++ ['\n'] := by
  intro subs
  induction subs with
  | nil => intro h; exact absurd rfl h
  | cons sub rest ih =>
    intro _
    cases rest with
    | nil =>
      show pyJoin ['\n'] [intRepr sub.index, timeLine sub, sub.text, []] = _
      rw [pyJoin_cons_cons, pyJoin_cons_cons, pyJoin_cons_cons]
      show _ = blockOf sub ++ ['\n']
      unfold blockOf
      simp [pyJoin]
    | cons s2 rest2 =>
      have hsave : save_srt (sub :: s2 :: rest2) =
          pyJoin ['\n'] ([intRepr sub.index, timeLine sub, sub.text, []] ++
            List.flatten ((s2 :: rest2).map fun r =>
              [intRepr r.index, timeLine r, r.text, []])) := rfl
      rw [hsave, pyJoin_append ['\n'] _ _ (by simp) (by simp)]
      have htail : pyJoin ['\n'] (List.flatten ((s2 :: rest2).map fun r =>
          [intRepr r.index, timeLine r, r.text, []])) = save_srt (s2 :: rest2) := rfl
      rw [htail, ih (by simp)]
      simp only [List.map_cons]
      unfold blockOf
      simp [pyJoin, List.append_assoc]

theorem filterMap_parseBlock (subs : List Subtitle)
    (h : ∀ sub ∈ subs, 0 ≤ sub.index ∧ 0 ≤ sub.start ∧ 0 ≤ sub.stop ∧ textGood sub.text) :
    (subs.map blockOf).filterMap parseBlock = subs := by
  induction subs with
  | nil => rfl
  | cons sub rest ih =>
    obtain ⟨h1, h2, h3, h4⟩ := h sub (by simp)
    rw [List.map_cons, List.filterMap_cons, parseBlock_blockOf sub h1 h2 h3 h4,
      ih fun r hr => h r (by simp [hr])]

theorem parse_save_roundtrip (subs : List Subtitle)
    (h : ∀ sub ∈ subs, 0 ≤ sub.index ∧ 0 ≤ sub.start ∧ 0 ≤ sub.stop ∧ textGood sub.text) :
    parse_srt (save_srt subs) = subs := by
  cases hs : subs with
  | nil => rfl
  | cons sub0 rest =>
    subst hs
    have hstrip : pyStrip (save_srt (sub0 :: rest)) =
        pyJoin ['\n', '\n'] (blockOf sub0 :: rest.map blockOf) := by
      rw [save_srt_eq _ (by simp), List.map_cons]
      obtain ⟨s, b, hbmem, hjeq⟩ :=
        pyJoin_last_mem ['\n', '\n'] (blockOf sub0 :: rest.map blockOf) (by simp)
      have hbm : ∃ sub', sub' ∈ sub0 :: rest ∧ blockOf sub' = b := by
        rcases List.mem_cons.mp hbmem with rfl | hbm
        · exact ⟨sub0, by simp, rfl⟩
        · obtain ⟨sub', hmem, rfl⟩ := List.mem_map.mp hbm
          exact ⟨sub', by simp [hmem], rfl⟩
      obtain ⟨sub', hmem, rfl⟩ := hbm
      obtain ⟨h1, h2, h3, h4⟩ := h sub' hmem
      apply pyStrip_trailing
      · intro x hx
        rw [List.mem_singleton.mp hx]
        rfl
      · rw [hjeq]
        simp [blockOf_ne_nil]
      · obtain ⟨s0, hs0⟩ :=
          pyJoin_head_tail ['\n', '\n'] (blockOf sub0 :: rest.map blockOf) (by simp)
        rw [show (blockOf sub0 :: rest.map blockOf).headI = blockOf sub0 from rfl] at hs0
        rw [hs0, headI_append_left _ _ (blockOf_ne_nil sub0)]
        exact blockOf_headI_nonspace sub0 (h sub0 (by simp)).1
      · rw [hjeq, getLastD_append_right _ _ (blockOf_ne_nil sub')]
        exact blockOf_getLastD_nonspace sub' h4
    have hgood2 : ∀ b ∈ blockOf sub0 :: rest.map blockOf, goodBlock b := by
      intro b hb
      rcases List.mem_cons.mp hb with rfl | hb
      · obtain ⟨h1, h2, h3, h4⟩ := h sub0 (by simp)
        exact goodBlock_blockOf _ h1 h2 h3 h4
      · obtain ⟨sub', hmem, rfl⟩ := List.mem_map.mp hb
        obtain ⟨h1, h2, h3, h4⟩ := h sub' (by simp [hmem])
        exact goodBlock_blockOf _ h1 h2 h3 h4
    unfold parse_srt
    rw [hstrip, splitSep_join_blocks _ hgood2 (by simp)]
    exact filterMap_parseBlock (sub0 :: rest) h

/-! ### Claims -/

/-- C1: `map_time` performs the accumulating-offset scan the spec
prescribes: with the cuts already passed (`t` at or past both endpoints)
contributing their total length as offset, it returns `(t - offset, false)`
at the first cut `(s, e)` with `t < s`, returns `(s - offset, true)` at the
first cut with `s ≤ t < e`, and returns `(t - offset, false)` with the full
offset when all cuts are exhausted; in particular, for the single cut
`(1000, 2000)`: `map_time 500 = (500, false)`, `map_time 1500 =
(1000, true)`, `map_time 3000 = (2000, false)`. -/
theorem C1_map_time_scan :
    (∀ (t : Int) (pre : List (Int × Int)) (s e : Int) (post : List (Int × Int)),
        (∀ p ∈ pre, p.1 ≤ t ∧ p.2 ≤ t) → t < s →
        map_time t (pre ++ (s, e) :: post) = (t - cutLen pre, false)) ∧
    (∀ (t : Int) (pre : List (Int × Int)) (s e : Int) (post : List (Int × Int)),
        (∀ p ∈ pre, p.1 ≤ t ∧ p.2 ≤ t) → s ≤ t → t < e →
        map_time t (pre ++ (s, e) :: post) = (s - cutLen pre, true)) ∧
    (∀ (t : Int) (cuts : List (Int × Int)), (∀ p ∈ cuts, p.1 ≤ t ∧ p.2 ≤ t) →
        map_time t cuts = (t - cutLen cuts, false)) ∧
    map_time 500 [(1000, 2000)] = (500, false) ∧
    map_time 1500 [(1000, 2000)] = (1000, true) ∧
    map_time 3000 [(1000, 2000)] = (2000, false) :=
  ⟨map_time_stop_before, map_time_stop_inside, map_time_all_passed,
    by decide, by decide, by decide⟩

/-- Witness for C1 at the spec's two-cut example. -/
theorem C1_map_time_scan_witness :
    map_time 3000 [(1000, 2000), (4000, 5000)] = (2000, false) ∧
    map_time 6000 [(1000, 2000), (4000, 5000)] = (4000, false) := by
  constructor
  · have h := C1_map_time_scan.1 3000 [(1000, 2000)] 4000 5000 [] (by decide) (by decide)
    simpa [cutLen] using h
  · have h := C1_map_time_scan.2.2.1 6000 [(1000, 2000), (4000, 5000)] (by decide)
    simpa [cutLen] using h

/-- C2 counterexample: the payload whose only range runs from 00:00:02 to
00:00:01 is kept by `load_cuts` as the pair `(2000, 1000)` even though its
start is not below its end, so not every returned pair satisfies
`start < end`. -/
theorem C2_malformed_kept_counterexample :
    load_cuts [⟨some ("00:00:02").toList, some ("00:00:01").toList⟩] = [(2000, 1000)] ∧
    ¬((2000 : Int) < 1000) := by
  constructor
  · unfold load_cuts
    rw [show collectCuts [⟨some ("00:00:02").toList, some ("00:00:01").toList⟩] =
        some [(2000, 1000)] from by decide]
    show List.mergeSort [(2000, 1000)] byStartLe = [(2000, 1000)]
    exact List.mergeSort_of_sorted (by simp)
  · decide

/-- C2 (amended): `load_cuts` discards nothing: whenever every present
range parses, the returned list is a permutation (the sorted rearrangement)
of all parsed pairs, malformed `start >= end` ranges included; ranges are
only lost wholesale, when a parse failure empties the entire load. -/
theorem C2_load_cuts_keeps_all (data : List CutItem) (l : List (Int × Int))
    (h : collectCuts data = some l) : (load_cuts data).Perm l :=
  load_cuts_perm data l h

/-- Witness for the amended C2: the malformed pair is retained. -/
theorem C2_load_cuts_keeps_all_witness :
    collectCuts [⟨some ("00:00:02").toList, some ("00:00:01").toList⟩] =
      some [(2000, 1000)] ∧
    (load_cuts [⟨some ("00:00:02").toList, some ("00:00:01").toList⟩]).Perm
      [(2000, 1000)] :=
  ⟨by decide, C2_load_cuts_keeps_all _ _ (by decide)⟩

/-- C3: `apply_cuts_to_subs` equals the spec's reconstruction: remap both
endpoints, drop exactly the records whose remapped duration is below the
100 ms threshold, keep survivors in order with fresh indices from 1 and
text copied verbatim; and on the three-record track with cut
`(1000, 2000)` the result is exactly the two records of the spec. -/
theorem C3_apply_cuts_reconstruction :
    (∀ (subs : List Subtitle) (cuts : List (Int × Int)),
        apply_cuts_to_subs subs cuts = reconstructSpec subs cuts) ∧
    apply_cuts_to_subs
        [⟨1, 0, 1000, ("keep1").toList⟩, ⟨2, 1200, 1800, ("delete").toList⟩,
         ⟨3, 2500, 3500, ("keep2").toList⟩] [(1000, 2000)] =
      [⟨1, 0, 1000, ("keep1").toList⟩, ⟨2, 1500, 2500, ("keep2").toList⟩] := by
  constructor
  · intro subs cuts
    unfold apply_cuts_to_subs reconstructSpec
    exact applyCutsAux_eq cuts subs 1
  · decide

/-- C4: for every non-negative millisecond count, parsing the formatted
`HH:MM:SS,mmm` text returns the count exactly (hours unbounded). -/
theorem C4_time_roundtrip (t : Int) (ht : 0 ≤ t) :
    parse_time_to_ms (format_ms_to_srt t) = some t :=
  parse_format_roundtrip t ht

/-- Witness for C4 at 01:02:03,045. -/
theorem C4_time_roundtrip_witness :
    (0 : Int) ≤ 3723045 ∧ parse_time_to_ms (format_ms_to_srt 3723045) = some 3723045 :=
  ⟨by decide, C4_time_roundtrip 3723045 (by decide)⟩

/-- C5 counterexample: the one-record track with index 1 and text
consisting of the single non-blank line made of an 'a' followed by a
space satisfies the claim's conditions (indices are 1..N, no blank line),
yet serializing and parsing returns the text without its trailing space,
so the track is not reproduced exactly. -/
theorem C5_roundtrip_counterexample :
    parse_srt (save_srt [⟨1, 0, 1000, ("a ").toList⟩]) = [⟨1, 0, 1000, ("a").toList⟩] ∧
    [(⟨1, 0, 1000, ("a").toList⟩ : Subtitle)] ≠ [⟨1, 0, 1000, ("a ").toList⟩] := by
  constructor <;> decide

/-- C5 (amended): parsing the serialized form reproduces the track exactly
for every track whose indices are the natural sequence 1..N, whose
timestamps are non-negative, and whose record texts have a non-whitespace
character on every line and do not end in whitespace. -/
theorem C5_roundtrip (subs : List Subtitle)
    (hidx : ∀ i (h : i < subs.length), (subs.get ⟨i, h⟩).index = (i : Int) + 1)
    (hts : ∀ sub ∈ subs, 0 ≤ sub.start ∧ 0 ≤ sub.stop)
    (htext : ∀ sub ∈ subs, textGood sub.text) :
    parse_srt (save_srt subs) = subs := by
  apply parse_save_roundtrip
  intro sub hmem
  obtain ⟨⟨i, hi⟩, hg⟩ := List.mem_iff_get.mp hmem
  have h2 := hidx i hi
  rw [hg] at h2
  exact ⟨by omega, (hts sub hmem).1, (hts sub hmem).2, htext sub hmem⟩

/-- Witness for the amended C5 on a two-record track. -/
theorem C5_roundtrip_witness :
    parse_srt (save_srt [⟨1, 0, 1000, ("hi").toList⟩, ⟨2, 1500, 2500, ("yo").toList⟩]) =
      [⟨1, 0, 1000, ("hi").toList⟩, ⟨2, 1500, 2500, ("yo").toList⟩] :=
  C5_roundtrip _ (by decide) (by decide) (by decide)

/-- C6: the validator's issue list is empty exactly on fully valid tracks
(positive durations, no overlap, monotone starts — so every violation
present is reported, in scan order), a record starting exactly where the
previous ends raises nothing, and the spec's overlapping pair yields
exactly one Overlap violation of magnitude 500 ms. -/
theorem C6_validator :
    (∀ subs : List Subtitle, check_alignment_issues subs = [] ↔ validTrack subs) ∧
    check_alignment_issues
      [⟨1, 1000, 2000, []⟩, ⟨2, 2000, 3000, []⟩, ⟨3, 3500, 4000, []⟩] = [] ∧
    check_alignment_issues [⟨1, 1000, 3000, []⟩, ⟨2, 2500, 4000, []⟩] =
      [Violation.overlap 1 2 3000 2500 500] := by
  refine ⟨?_, by decide, by decide⟩
  intro subs
  unfold check_alignment_issues validTrack
  rw [checkAux_nil_iff subs none]
  constructor
  · rintro ⟨a, b, _⟩
    exact ⟨a, b⟩
  · rintro ⟨a, b⟩
    exact ⟨a, b, fun p hp => Option.noConfusion hp⟩

/-- C7: the list returned by `load_cuts` is always sorted ascending by
range start, and overlapping ranges are passed through unmerged, as on the
overlapping payload 00:00:01-00:00:03, 00:00:02-00:00:04. -/
theorem C7_load_cuts_sorted_unmerged :
    (∀ data : List CutItem,
        List.Pairwise (fun a b : Int × Int => a.1 ≤ b.1) (load_cuts data)) ∧
    load_cuts [⟨some ("00:00:01").toList, some ("00:00:03").toList⟩,
               ⟨some ("00:00:02").toList, some ("00:00:04").toList⟩] =
      [(1000, 3000), (2000, 4000)] := by
  refine ⟨load_cuts_sorted, ?_⟩
  unfold load_cuts
  rw [show collectCuts [⟨some ("00:00:01").toList, some ("00:00:03").toList⟩,
      ⟨some ("00:00:02").toList, some ("00:00:04").toList⟩] =
      some [(1000, 3000), (2000, 4000)] from by decide]
  show List.mergeSort [(1000, 3000), (2000, 4000)] byStartLe = _
  exact List.mergeSort_of_sorted (by decide)

/-- C8 counterexample: the input "1,2,3" has a single colon-separated
field (neither two nor three), yet `parse_time_to_ms` raises a
`ValueError` from unpacking the comma split (`none`) instead of returning
the lenient `0`. -/
theorem C8_field_count_counterexample :
    (splitOnChar ':' (("1,2,3").toList)).length = 1 ∧
    parse_time_to_ms (("1,2,3").toList) = none := by
  constructor <;> decide

/-- C8 (amended): whenever the millisecond-separator unpacking succeeds
(at most one comma — or, lacking a comma, at most one dot — after
stripping) and the colon field count of the time part is neither two nor
three, `parse_time_to_ms` returns `0` and raises no error. -/
theorem C8_lenient_fallback (s hms ms : List Char)
    (hsplit : msSplitParts (pyStrip s) = some (hms, ms))
    (h2 : (splitOnChar ':' hms).length ≠ 2) (h3 : (splitOnChar ':' hms).length ≠ 3) :
    parse_time_to_ms s = some 0 := by
  unfold parse_time_to_ms
  rw [hsplit, Option.some_bind]
  show timeFieldsValue (splitOnChar ':' hms) ms = some 0
  cases hsp : splitOnChar ':' hms with
  | nil => rfl
  | cons p1 t1 =>
    cases t1 with
    | nil => rfl
    | cons p2 t2 =>
      cases t2 with
      | nil => rw [hsp] at h2; simp at h2
      | cons p3 t3 =>
        cases t3 with
        | nil => rw [hsp] at h3; simp at h3
        | cons p4 t4 => rfl

/-- Witness for the amended C8 on the four-field input "1:2:3:4". -/
theorem C8_lenient_fallback_witness :
    msSplitParts (pyStrip (("1:2:3:4").toList)) =
      some ((("1:2:3:4").toList), ['0', '0', '0']) ∧
    (splitOnChar ':' (("1:2:3:4").toList)).length = 4 ∧
    parse_time_to_ms (("1:2:3:4").toList) = some 0 :=
  ⟨by decide, by decide,
    C8_lenient_fallback (("1:2:3:4").toList) (("1:2:3:4").toList) (['0', '0', '0'])
      (by decide) (by decide) (by decide)⟩

/-- C9: for a cut list sorted ascending by start, pairwise disjoint, with
`start < end` in each range, the remapped coordinate is monotone
non-decreasing in the original timestamp. -/
theorem C9_map_time_monotone (cuts : List (Int × Int)) (t1 t2 : Int)
    (hsorted : List.Pairwise (fun p q : Int × Int => p.1 ≤ q.1) cuts)
    (hdisj : List.Pairwise (fun p q : Int × Int => p.2 ≤ q.1 ∨ q.2 ≤ p.1) cuts)
    (hpos : ∀ p ∈ cuts, p.1 < p.2) (ht : t1 ≤ t2) :
    (map_time t1 cuts).1 ≤ (map_time t2 cuts).1 := by
  have hpw : List.Pairwise (fun p q : Int × Int => p.2 ≤ q.1) cuts := by
    refine (hsorted.and hdisj).imp_of_mem ?_
    intro p q hp hq hr
    rcases hr.2 with h | h
    · exact h
    · have h1 := hpos q hq
      have h2 := hr.1
      omega
  unfold map_time
  exact mapTimeAux_mono cuts 0 t1 t2 ht hpos hpw

/-- Witness for C9 on the two-cut list at 1500 and 3000. -/
theorem C9_map_time_monotone_witness :
    (map_time 1500 [(1000, 2000), (4000, 5000)]).1 ≤
      (map_time 3000 [(1000, 2000), (4000, 5000)]).1 :=
  C9_map_time_monotone [(1000, 2000), (4000, 5000)] 1500 3000
    (by decide) (by decide) (by decide) (by decide)

/-- C10: every record returned by `apply_cuts_to_subs` has remapped
duration at least 100 ms, hence strictly positive, and the validator's
issue list on such output never contains a non-positive-duration
violation. -/
theorem C10_min_duration :
    (∀ (subs : List Subtitle) (cuts : List (Int × Int)) (r : Subtitle),
        r ∈ apply_cuts_to_subs subs cuts →
        100 ≤ r.stop - r.start ∧ 0 < r.stop - r.start) ∧
    (∀ (subs : List Subtitle) (cuts : List (Int × Int)) (v : Violation),
        v ∈ check_alignment_issues (apply_cuts_to_subs subs cuts) →
        ∀ i s e, v ≠ Violation.nonPositiveDuration i s e) := by
  constructor
  · intro subs cuts r hr
    have h := applyCutsAux_min_duration cuts subs 1 r hr
    exact ⟨h, by omega⟩
  · intro subs cuts v hv
    apply checkAux_no_nonPos (apply_cuts_to_subs subs cuts) none ?_ v hv
    intro r hr
    have h := applyCutsAux_min_duration cuts subs 1 r hr
    omega

/-- Witness for C10 on a one-record track with no cuts. -/
theorem C10_min_duration_witness :
    (⟨1, 0, 1000, ("a").toList⟩ : Subtitle) ∈
      apply_cuts_to_subs [⟨1, 0, 1000, ("a").toList⟩] [] ∧
    (100 : Int) ≤ 1000 - 0 := by
  refine ⟨by decide, ?_⟩
  have h := C10_min_duration.1 [⟨1, 0, 1000, ("a").toList⟩] []
    ⟨1, 0, 1000, ("a").toList⟩ (by decide)
  exact h.1
